import Mathlib

/-!
# Compact trie map (`src/util/triemap.c`, `src/util/triemap.h`)

A shallow embedding of the compressed radix trie and a verification of its
contract.

Representation choices:

* a byte string `(unsigned char *str, tm_len_t len)` is a `List Nat`, its
  length being `len`; key lengths are `tm_len_t` (16 bits), so keys handed to
  the operations are at most `TM_MAX_STRING_LEN` long;
* a `void *` value is a `Nat`, `0` being `NULL`;
* a node is its segment `str` (so `len = str.length`), its `flags` byte, its
  `value` and the first `numChildren` slots of its child array (so
  `numChildren = children.length`); slots past `numChildren` are never read by
  the source;
* the 8-bit child counter wraps in `__trieMapNode_AddChild` (explicit `% 256`),
  the 16-bit length wraps in `__trieMapNode_MergeWithSingleChild`
  (explicit `% 65536`);
* the calls of the value destructor are an explicit trace (`List Release`);
* the functions that change a node in place or through `TrieMapNode **` return
  the new node; the path stack of `TrieMapNode_Delete` is the recursion: each
  node on the stack is compacted after the descent below it has returned,
  deepest node first.
-/

/-- The node of the trie: `str` is the segment (`len` is its length), `flags`
the flag byte, `value` the payload pointer (`0` is `NULL`), `children` the
child array (`numChildren` is its length). -/
inductive TrieMapNode where
  | mk (str : List Nat) (flags : Nat) (value : Nat) (children : List TrieMapNode)

namespace TrieMapNode

/-- The segment bytes `n->str[0 .. n->len)`. -/
def str : TrieMapNode → List Nat
  | mk s _ _ _ => s

/-- The flag byte `n->flags`. -/
def flags : TrieMapNode → Nat
  | mk _ f _ _ => f

/-- The payload `n->value`. -/
def value : TrieMapNode → Nat
  | mk _ _ v _ => v

/-- The child array `__trieMapNode_children(n)[0 .. n->numChildren)`. -/
def children : TrieMapNode → List TrieMapNode
  | mk _ _ _ c => c

/-- The field `n->len`. -/
def len (n : TrieMapNode) : Nat := n.str.length

/-- The field `n->numChildren`. -/
def numChildren (n : TrieMapNode) : Nat := n.children.length

end TrieMapNode

/-- `#define TM_MAX_STRING_LEN 0xFFFF` -/
abbrev TM_MAX_STRING_LEN : Nat := 65535

/-- `#define TM_NODE_DELETED 0x01` -/
abbrev TM_NODE_DELETED : Nat := 1

/-- `#define TM_NODE_TERMINAL 0x02` -/
abbrev TM_NODE_TERMINAL : Nat := 2

/-- `#define __trieMapNode_isTerminal(n) (n->flags & TM_NODE_TERMINAL)` -/
def __trieMapNode_isTerminal (n : TrieMapNode) : Nat := n.flags &&& TM_NODE_TERMINAL

/-- `#define __trieMapNode_isDeleted(n) (n->flags & TM_NODE_DELETED)` -/
def __trieMapNode_isDeleted (n : TrieMapNode) : Nat := n.flags &&& TM_NODE_DELETED

/-- One release of a stored value: through the caller's `freeCB`, or through
`free()` when no callback was given. -/
inductive Release where
  | viaCB (v : Nat)
  | viaFree (v : Nat)
deriving DecidableEq

/-- `__newTrieMapNode(str, offset, len, numChildren, value, terminal)`: the
segment is `str[offset .. len)`. The `numChildren` child slots are allocated
empty; the callers that pass a non-zero count fill them right away, which is
modelled at those callers. -/
def __newTrieMapNode (str : List Nat) (offset len : Nat) (value : Nat) (terminal : Nat) :
    TrieMapNode :=
  .mk ((str.drop offset).take (len - offset)) (if terminal ≠ 0 then TM_NODE_TERMINAL else 0)
    value []

/-- `NewTrieMap()`: the empty root. -/
def NewTrieMap : TrieMapNode := __newTrieMapNode [] 0 0 0 0

/-- `__trieMapNode_AddChild(n, str, offset, len, value)`: `n->numChildren++` on
the 8-bit counter, the block is reallocated to that many slots and the new
terminal child is stored in the last of them. When the counter wraps from 255
to 0 the block keeps no slot: the old children are lost and the store goes to
index `-1`, before the slot array, so the node is left without children that
any loop over `numChildren` could see. -/
def __trieMapNode_AddChild (n : TrieMapNode) (str : List Nat) (offset len : Nat) (value : Nat) :
    TrieMapNode :=
  let numChildren := (n.numChildren + 1) % 256
  let child := __newTrieMapNode str offset len value 1
  .mk n.str n.flags n.value ((n.children ++ [child]).take numChildren)

/-- `__trieMapNode_Split(n, offset)`: the node keeps `str[0 .. offset)` and gets
one child holding the rest of the segment with the old children, value and
flags. -/
def __trieMapNode_Split (n : TrieMapNode) (offset : Nat) : TrieMapNode :=
  let newChild := __newTrieMapNode n.str offset n.len n.value (__trieMapNode_isTerminal n)
  let newChild := TrieMapNode.mk newChild.str n.flags newChild.value n.children
  .mk (n.str.take offset) (n.flags &&& 252) 0 [newChild]

/-- `__trieMapNode_MergeWithSingleChild(n)`: a non-terminal node with exactly
one child is replaced by one node carrying both segments and the child's
children, value and flags. The length argument is a `tm_len_t`. -/
def __trieMapNode_MergeWithSingleChild (n : TrieMapNode) : TrieMapNode :=
  if __trieMapNode_isTerminal n ≠ 0 ∨ n.numChildren ≠ 1 then n
  else
    match n.children with
    | [] => n
    | ch :: _ =>
      let nstr := n.str ++ ch.str
      let merged := __newTrieMapNode nstr 0 ((n.len + ch.len) % 65536) ch.value
        (__trieMapNode_isTerminal ch)
      .mk merged.str ch.flags merged.value ch.children

/-- The matching loop shared by `TrieMapNode_Add`, `TrieMapNode_Find` and
`TrieMapNode_Delete`: the number of leading positions at which the key and
the segment agree (`offset` / `localOffset` when the loop ends). -/
def matchLen : List Nat → List Nat → Nat
  | a :: as, b :: bs => if a = b then matchLen as bs + 1 else 0
  | _, _ => 0

/-- The byte `child->str[0]`; a node allocated with an empty segment holds the
zero byte of `calloc` there. -/
def firstByte (n : TrieMapNode) : Nat := n.str.headD 0

mutual
/-- `TrieMapNode_Add(&n, str, len, value, cb)`: the new node and the return
code. -/
def TrieMapNode_Add : TrieMapNode → List Nat → Nat → Option (Nat → Nat → Nat) →
    TrieMapNode × Nat
  | .mk str flags value children, key, v, cb =>
    if key.length = 0 then (.mk str flags value children, 0)
    else
      let offset := matchLen key str
      if offset < str.length then
        let n := __trieMapNode_Split (.mk str flags value children) offset
        if offset = key.length then
          (.mk n.str (n.flags ||| TM_NODE_TERMINAL) v n.children, 1)
        else (__trieMapNode_AddChild n key offset key.length v, 1)
      else if offset = key.length then
        let term := flags &&& TM_NODE_TERMINAL
        let deleted := flags &&& TM_NODE_DELETED
        let value' := match cb with
          | some f => f value v
          | none => v
        (.mk str ((flags ||| TM_NODE_TERMINAL) &&& 254) value' children,
          if term ≠ 0 ∧ deleted = 0 then 0 else 1)
      else
        match addToChild children (key.drop offset) v cb with
        | some (children', rc) => (.mk str flags value children', rc)
        | none =>
          (__trieMapNode_AddChild (.mk str flags value children) key offset key.length v, 1)
/-- The child scan of `TrieMapNode_Add`: the first child whose first byte is
the key's next byte is replaced by the result of the recursive call; `none`
when no child matches. -/
def addToChild : List TrieMapNode → List Nat → Nat → Option (Nat → Nat → Nat) →
    Option (List TrieMapNode × Nat)
  | [], _, _, _ => none
  | c :: cs, key, v, cb =>
    if key.headD 0 = firstByte c then
      some ((TrieMapNode_Add c key v cb).1 :: cs, (TrieMapNode_Add c key v cb).2)
    else
      match addToChild cs key v cb with
      | some (cs', rc) => some (c :: cs', rc)
      | none => none
end

mutual
/-- `TrieMapNode_Find(n, str, len)`: one round of the `while` loop at node `n`
with the unconsumed part of the key; `0` is `NULL`. -/
def TrieMapNode_Find : TrieMapNode → List Nat → Nat
  | .mk str flags value children, key =>
    if key.length = 0 then 0
    else
      let localOffset := matchLen key str
      if localOffset = key.length then
        if localOffset = str.length then
          (if flags &&& TM_NODE_DELETED ≠ 0 then 0 else value)
        else 0
      else if localOffset = str.length then findChild children (key.drop localOffset)
      else 0
/-- The child scan of `TrieMapNode_Find`; `0` when no child matches. -/
def findChild : List TrieMapNode → List Nat → Nat
  | [], _ => 0
  | c :: cs, key =>
    if key.headD 0 = firstByte c then TrieMapNode_Find c key else findChild cs key
end

mutual
/-- `TrieMapNode_Free(n, freeCB)`: the releases of values, in call order;
`freeCB` tells whether a callback was given. -/
def TrieMapNode_Free : TrieMapNode → Bool → List Release
  | .mk _ _ value children, freeCB =>
    freeChildren children freeCB ++
      (if value ≠ 0 then [if freeCB then Release.viaCB value else Release.viaFree value] else [])
/-- The loop over the children in `TrieMapNode_Free`. -/
def freeChildren : List TrieMapNode → Bool → List Release
  | [], _ => []
  | c :: cs, freeCB => TrieMapNode_Free c freeCB ++ freeChildren cs freeCB
end

/-- The loop of `__trieMapNode_optimizeChildren` over the child array from
index `i` on. When the child at `i` is removed, the inner loop moves the later
children down and leaves `i` at the old last index, so the outer loop ends
there: the children behind a removed one are not looked at. -/
def optimizeChildrenLoop : List TrieMapNode → Bool → List TrieMapNode × List Release
  | [], _ => ([], [])
  | c :: rest, freeCB =>
    if c.numChildren = 0 ∧ __trieMapNode_isDeleted c ≠ 0 then (rest, TrieMapNode_Free c freeCB)
    else
      let c' := if c.numChildren = 1 then __trieMapNode_MergeWithSingleChild c else c
      let r := optimizeChildrenLoop rest freeCB
      (c' :: r.1, r.2)

/-- `__trieMapNode_optimizeChildren(n, freeCB)`: the node with its compacted
child array, and the releases made. -/
def __trieMapNode_optimizeChildren (n : TrieMapNode) (freeCB : Bool) :
    TrieMapNode × List Release :=
  let r := optimizeChildrenLoop n.children freeCB
  (.mk n.str n.flags n.value r.1, r.2)

mutual
/-- `TrieMapNode_Delete(n, str, len, freeCB)`: one round of the descent at node
`n`, followed on the way back by the compaction of `n` (the node is on the
path stack). Gives the node, the return code and the releases made. -/
def TrieMapNode_Delete : TrieMapNode → List Nat → Bool → TrieMapNode × Nat × List Release
  | .mk str flags value children, key, freeCB =>
    if key.length = 0 then (.mk str flags value children, 0, [])
    else
      let localOffset := matchLen key str
      if localOffset = key.length then
        if localOffset = str.length then
          if flags &&& TM_NODE_DELETED = 0 then
            let o := __trieMapNode_optimizeChildren
              (.mk str ((flags ||| TM_NODE_DELETED) &&& 253) 0 children) freeCB
            (o.1, 1, o.2)
          else
            let o := __trieMapNode_optimizeChildren (.mk str flags value children) freeCB
            (o.1, 0, o.2)
        else
          let o := __trieMapNode_optimizeChildren (.mk str flags value children) freeCB
          (o.1, 0, o.2)
      else if localOffset = str.length then
        match deleteInChild children (key.drop localOffset) freeCB with
        | some (children', rc, tr) =>
          let o := __trieMapNode_optimizeChildren (.mk str flags value children') freeCB
          (o.1, rc, tr ++ o.2)
        | none =>
          let o := __trieMapNode_optimizeChildren (.mk str flags value children) freeCB
          (o.1, 0, o.2)
      else
        let o := __trieMapNode_optimizeChildren (.mk str flags value children) freeCB
        (o.1, 0, o.2)
/-- The child scan of `TrieMapNode_Delete`: the descent continues in the first
child whose first byte is the key's next byte; `none` when no child
matches. -/
def deleteInChild : List TrieMapNode → List Nat → Bool →
    Option (List TrieMapNode × Nat × List Release)
  | [], _, _ => none
  | c :: cs, key, freeCB =>
    if key.headD 0 = firstByte c then
      let r := TrieMapNode_Delete c key freeCB
      some (r.1 :: cs, r.2.1, r.2.2)
    else
      match deleteInChild cs key freeCB with
      | some (cs', rc, tr) => some (c :: cs', rc, tr)
      | none => none
end


/-- One round of `TrieMapNode_Find` without the loop test `offset < len` at its
head; a device of the proofs. -/
def findRound : TrieMapNode → List Nat → Nat
  | .mk str flags value children, key =>
    let localOffset := matchLen key str
    if localOffset = key.length then
      if localOffset = str.length then
        (if flags &&& TM_NODE_DELETED ≠ 0 then 0 else value)
      else 0
    else if localOffset = str.length then findChild children (key.drop localOffset)
    else 0

mutual
/-- Companion of `TrieMapNode_Add`: it follows the same descent for the same
key and tells whether the 8-bit child counter stays in range, that is,
whether every `__trieMapNode_AddChild` the call makes is applied to a node
with fewer than 255 children. (The node made by a split has one child.) -/
def addFits : TrieMapNode → List Nat → Bool
  | .mk str _ _ children, key =>
    if key.length = 0 then true
    else
      let offset := matchLen key str
      if offset < str.length then true
      else if offset = key.length then true
      else addFitsChild children children.length (key.drop offset)
/-- The child scan of `addFits`; `numChildren` is the child count of the node
whose children are scanned. -/
def addFitsChild : List TrieMapNode → Nat → List Nat → Bool
  | [], numChildren, _ => decide (numChildren < 255)
  | c :: cs, numChildren, key =>
    if key.headD 0 = firstByte c then addFits c key else addFitsChild cs numChildren key
end

/-- The tries reachable from `NewTrieMap()` by calls of `TrieMapNode_Add` and
`TrieMapNode_Delete` under the contract of the header: keys that fit
`tm_len_t`, non-`NULL` values, replace callbacks that return non-`NULL`, and
no node given more than 255 children. -/
inductive Reachable : TrieMapNode → Prop
  | new : Reachable NewTrieMap
  | add {t : TrieMapNode} (key : List Nat) (v : Nat) (cb : Option (Nat → Nat → Nat)) :
      Reachable t → key.length ≤ TM_MAX_STRING_LEN → v ≠ 0 →
      (∀ f, cb = some f → ∀ old new, f old new ≠ 0) → addFits t key = true →
      Reachable (TrieMapNode_Add t key v cb).1
  | delete {t : TrieMapNode} (key : List Nat) (freeCB : Bool) :
      Reachable t → Reachable (TrieMapNode_Delete t key freeCB).1

/-- The calls `TrieMapNode_Add(&t, k, v, NULL)` for the pairs of a list, in
order. -/
def addAll : TrieMapNode → List (List Nat × Nat) → TrieMapNode
  | t, [] => t
  | t, (k, v) :: rest => addAll (TrieMapNode_Add t k v none).1 rest

/-- No call made by `addAll` gives a node more than 255 children. -/
def addAllFits : TrieMapNode → List (List Nat × Nat) → Bool
  | _, [] => true
  | t, (k, v) :: rest => addFits t k && addAllFits (TrieMapNode_Add t k v none).1 rest

/-- The structural invariant of a subtree whose segments may take up `b` more
bytes of a key: the lengths fit, the child counter fits its byte, sibling
segments start with different bytes and are not empty, a node is not both
terminal and deleted, and its value is non-`NULL` exactly when it is
terminal. -/
inductive NodeInv : Nat → TrieMapNode → Prop
  | mk {b : Nat} {str : List Nat} {flags value : Nat} {children : List TrieMapNode} :
      str.length ≤ b →
      children.length ≤ 255 →
      children.Pairwise (fun a c => firstByte a ≠ firstByte c) →
      (flags &&& TM_NODE_TERMINAL = 0 ∨ flags &&& TM_NODE_DELETED = 0) →
      (value ≠ 0 ↔ flags &&& TM_NODE_TERMINAL ≠ 0) →
      (∀ c ∈ children, c.str ≠ []) →
      (∀ c ∈ children, NodeInv (b - str.length) c) →
      NodeInv b (.mk str flags value children)

/-- The invariant of a root: the empty segment, no flag, no value, and the
structural invariant below it. -/
def RootInv (t : TrieMapNode) : Prop :=
  t.str = [] ∧ t.flags = 0 ∧ t.value = 0 ∧ NodeInv TM_MAX_STRING_LEN t

mutual
/-- The keys below a node that carry a value, relative to the node's parent,
in the order in which `TrieMapNode_Free` meets their values. -/
def liveKeys : TrieMapNode → List (List Nat)
  | .mk str _ value children =>
    (liveKeysChildren children).map (fun k => str ++ k) ++ (if value ≠ 0 then [str] else [])
/-- The keys of `liveKeys` for the children of a node. -/
def liveKeysChildren : List TrieMapNode → List (List Nat)
  | [] => []
  | c :: cs => liveKeys c ++ liveKeysChildren cs
end

/-- The trie whose root has the `n` leaf children `[0]`, …, `[n - 1]`, the
child `[i]` holding the value `i + 1`: what `n` insertions of one-byte keys
build. -/
def fullRoot (n : Nat) : TrieMapNode :=
  .mk [] 0 0 ((List.range n).map (fun i => TrieMapNode.mk [i] 2 (i + 1) []))

/-- `sizeof(TrieMapNode)` under `#pragma pack(1)`: `len` takes 2 bytes,
`numChildren` 1, `flags` 1 and `value` 8 (a 64-bit pointer); the flexible
array `str[]` adds nothing. -/
abbrev sizeof_TrieMapNode : Nat := 12

/-- `sizeof(TrieMapNode *)` with 64-bit pointers. -/
abbrev sizeof_pointer : Nat := 8

/-- `__trieMapNode_Sizeof(numChildren, slen)`. The sum is a `size_t`; it is the
size of a block that is allocated, so it does not wrap. -/
def __trieMapNode_Sizeof (numChildren slen : Nat) : Nat :=
  sizeof_TrieMapNode + numChildren * sizeof_pointer + (slen + 1)

mutual
/-- `TrieMapNode_MemUsage(n)`. -/
def TrieMapNode_MemUsage : TrieMapNode → Nat
  | .mk str _ _ children =>
    __trieMapNode_Sizeof children.length str.length + memUsageChildren children
/-- The loop over the children in `TrieMapNode_MemUsage`. -/
def memUsageChildren : List TrieMapNode → Nat
  | [] => 0
  | c :: cs => TrieMapNode_MemUsage c + memUsageChildren cs
end

mutual
/-- The number of nodes on the path stack of `TrieMapNode_Delete` at the label
`end` (the value of `stackPos`), for the descent that starts at node `n` with
the unconsumed part of the key: every round of the `while` loop pushes the
node it looks at. -/
def deleteStackPos : TrieMapNode → List Nat → Nat
  | .mk str _ _ children, key =>
    if key.length = 0 then 0
    else
      let localOffset := matchLen key str
      if localOffset = key.length then 1
      else if localOffset = str.length then
        1 + deleteStackPosChild children (key.drop localOffset)
      else 1
/-- The child scan of `deleteStackPos`: no further push when no child
matches. -/
def deleteStackPosChild : List TrieMapNode → List Nat → Nat
  | [], _ => 0
  | c :: cs, key =>
    if key.headD 0 = firstByte c then deleteStackPos c key else deleteStackPosChild cs key
end

mutual
/-- The nodes of a subtree, the root of the subtree first. -/
def allNodes : TrieMapNode → List TrieMapNode
  | .mk str flags value children => .mk str flags value children :: allNodesChildren children
/-- The nodes of the subtrees of a child array. -/
def allNodesChildren : List TrieMapNode → List TrieMapNode
  | [] => []
  | c :: cs => allNodes c ++ allNodesChildren cs
end

/-- The radix property of a subtree: in every node the children have
non-empty segments that start with pairwise different bytes. -/
def RadixOK (n : TrieMapNode) : Prop :=
  ∀ m ∈ allNodes n, (∀ c ∈ m.children, 1 ≤ c.len) ∧
    m.children.Pairwise (fun a c => firstByte a ≠ firstByte c)

/-- The compaction invariant of a subtree below the root: every node is
terminal or has at least two children. -/
inductive CompactInv : TrieMapNode → Prop
  | mk {str : List Nat} {flags value : Nat} {children : List TrieMapNode} :
      (flags &&& TM_NODE_TERMINAL ≠ 0 ∨ 2 ≤ children.length) →
      (∀ c ∈ children, CompactInv c) →
      CompactInv (.mk str flags value children)

/-- A chain of `k + 1` terminal nodes with the one-byte segment `[7]`, each
the only child of the one above: what the keys `7`, `7 7`, `7 7 7`, …
build below the root. -/
def chainNode : Nat → TrieMapNode
  | 0 => .mk [7] 2 1 []
  | k + 1 => .mk [7] 2 1 [chainNode k]

/-- The trie that holds the `k + 1` keys made of one to `k + 1` bytes `7`. -/
def chainRoot (k : Nat) : TrieMapNode := .mk [] 0 0 [chainNode k]

/-! ## Flag arithmetic -/

theorem bit0_iff (x : Nat) : x % 2 = 1 ↔ x.testBit 0 = true := by
  rw [Nat.testBit_zero]; simp

theorem bit0_of_false {x : Nat} (h : x.testBit 0 = false) : x % 2 = 0 := by
  rcases Nat.mod_two_eq_zero_or_one x with h3 | h3
  · exact h3
  · rw [(bit0_iff x).mp h3] at h; exact absurd h (by simp)

theorem bit1_iff (f : Nat) : f &&& 2 = 0 ↔ f.testBit 1 = false := by
  constructor
  · intro h
    have h2 := congrArg (fun x => Nat.testBit x 1) h
    have h3 : Nat.testBit 2 1 = true := by decide
    simpa [Nat.testBit_and, h3] using h2
  · intro h
    apply Nat.eq_of_testBit_eq
    intro i
    rw [Nat.testBit_and, Nat.zero_testBit]
    by_cases hi : i = 1
    · subst hi; rw [h]; rfl
    · have h2 : Nat.testBit 2 i = false := by
        have h3 := @Nat.testBit_two_pow_of_ne 1 i (Ne.symm hi)
        simpa using h3
      rw [h2, Bool.and_false]

@[simp] theorem flags_add_del (f : Nat) : ((f ||| 2) &&& 254) % 2 = 0 := by
  apply bit0_of_false
  rw [Nat.testBit_and, show Nat.testBit 254 0 = false by decide, Bool.and_false]

@[simp] theorem flags_add_term (f : Nat) : (((f ||| 2) &&& 254) &&& 2 = 0) ↔ False := by
  rw [bit1_iff, Nat.testBit_and, Nat.testBit_or, show Nat.testBit 254 1 = true by decide,
    show Nat.testBit 2 1 = true by decide]
  simp

@[simp] theorem flags_del_del (f : Nat) : ((f ||| 1) &&& 253) % 2 = 1 := by
  rw [bit0_iff, Nat.testBit_and, Nat.testBit_or, show Nat.testBit 253 0 = true by decide,
    show Nat.testBit 1 0 = true by decide]
  simp

@[simp] theorem flags_del_term (f : Nat) : ((f ||| 1) &&& 253) &&& 2 = 0 := by
  rw [bit1_iff, Nat.testBit_and, show Nat.testBit 253 1 = false by decide, Bool.and_false]

@[simp] theorem flags_split_del (f : Nat) : (f &&& 252) % 2 = 0 := by
  apply bit0_of_false
  rw [Nat.testBit_and, show Nat.testBit 252 0 = false by decide, Bool.and_false]

@[simp] theorem flags_split_term (f : Nat) : (f &&& 252) &&& 2 = 0 := by
  rw [bit1_iff, Nat.testBit_and, show Nat.testBit 252 1 = false by decide, Bool.and_false]

@[simp] theorem flags_split_set_del (f : Nat) : ((f &&& 252) ||| 2) % 2 = 0 := by
  apply bit0_of_false
  rw [Nat.testBit_or, Nat.testBit_and, show Nat.testBit 252 0 = false by decide,
    show Nat.testBit 2 0 = false by decide]
  simp

@[simp] theorem flags_split_set_term (f : Nat) : (((f &&& 252) ||| 2) &&& 2 = 0) ↔ False := by
  rw [bit1_iff, Nat.testBit_or, show Nat.testBit 2 1 = true by decide]
  simp

/-! ## The matching loop -/

theorem matchLen_nil_left (s : List Nat) : matchLen [] s = 0 := by
  cases s <;> rfl

theorem matchLen_nil_right (k : List Nat) : matchLen k [] = 0 := by
  cases k <;> rfl

theorem matchLen_cons (a b : Nat) (k s : List Nat) :
    matchLen (a :: k) (b :: s) = if a = b then matchLen k s + 1 else 0 := rfl

theorem matchLen_le_left (k s : List Nat) : matchLen k s ≤ k.length := by
  induction k generalizing s with
  | nil => simp [matchLen_nil_left]
  | cons a k ih =>
    cases s with
    | nil => simp [matchLen_nil_right]
    | cons b s =>
      rw [matchLen_cons]
      split
      · have := ih s; simp; omega
      · simp

theorem matchLen_le_right (k s : List Nat) : matchLen k s ≤ s.length := by
  induction k generalizing s with
  | nil => simp [matchLen_nil_left]
  | cons a k ih =>
    cases s with
    | nil => simp [matchLen_nil_right]
    | cons b s =>
      rw [matchLen_cons]
      split
      · have := ih s; simp; omega
      · simp

theorem matchLen_append (p k s : List Nat) :
    matchLen (p ++ k) (p ++ s) = p.length + matchLen k s := by
  induction p with
  | nil => simp
  | cons a p ih => simp [matchLen_cons, ih]; omega

theorem matchLen_self_append (p k : List Nat) : matchLen (p ++ k) p = p.length := by
  have h := matchLen_append p k []
  simpa [matchLen_nil_right] using h

theorem matchLen_append_self (p s : List Nat) : matchLen p (p ++ s) = p.length := by
  have h := matchLen_append p [] s
  simpa [matchLen_nil_left] using h

/-- The key and the segment split into their common prefix and two rests that
are empty or start with different bytes. -/
theorem matchLen_decomp (key str : List Nat) :
    ∃ p k s, key = p ++ k ∧ str = p ++ s ∧ matchLen key str = p.length ∧
      (k = [] ∨ s = [] ∨ ∃ a k' b s', k = a :: k' ∧ s = b :: s' ∧ a ≠ b) := by
  induction key generalizing str with
  | nil => exact ⟨[], [], str, rfl, rfl, by simp [matchLen_nil_left], Or.inl rfl⟩
  | cons a key ih =>
    cases str with
    | nil => exact ⟨[], a :: key, [], rfl, rfl, by simp [matchLen_nil_right], Or.inr (Or.inl rfl)⟩
    | cons b str =>
      by_cases hab : a = b
      · subst hab
        obtain ⟨p, k, s, hk, hs, hm, hc⟩ := ih str
        refine ⟨a :: p, k, s, by simp [hk], by simp [hs], ?_, hc⟩
        simp [matchLen_cons, hm]
      · refine ⟨[], a :: key, b :: str, rfl, rfl, ?_,
          Or.inr (Or.inr ⟨a, key, b, str, rfl, rfl, hab⟩)⟩
        simp [matchLen_cons, hab]

/-! ## The lookup -/

theorem Find_eq (n : TrieMapNode) (key : List Nat) :
    TrieMapNode_Find n key = if key = [] then 0 else findRound n key := by
  cases n with
  | mk str flags value children =>
    cases key with
    | nil => simp [TrieMapNode_Find]
    | cons b k => simp [TrieMapNode_Find, findRound]

theorem Find_nil (n : TrieMapNode) : TrieMapNode_Find n [] = 0 := by
  simp [Find_eq]

theorem Find_cons (n : TrieMapNode) (b : Nat) (k : List Nat) :
    TrieMapNode_Find n (b :: k) = findRound n (b :: k) := by
  simp [Find_eq]

theorem findRound_nil_nil (f v : Nat) (cs : List TrieMapNode) :
    findRound (.mk [] f v cs) [] = if f % 2 = 1 then 0 else v := by
  simp [findRound, matchLen_nil_left]

theorem findRound_nil_cons (f v : Nat) (cs : List TrieMapNode) (b : Nat) (k : List Nat) :
    findRound (.mk [] f v cs) (b :: k) = findChild cs (b :: k) := by
  simp [findRound, matchLen_nil_right]

theorem findRound_cons_nil (a : Nat) (s : List Nat) (f v : Nat) (cs : List TrieMapNode) :
    findRound (.mk (a :: s) f v cs) [] = 0 := by
  simp [findRound, matchLen_nil_left]

theorem findRound_cons_cons (a : Nat) (s : List Nat) (f v : Nat) (cs : List TrieMapNode)
    (b : Nat) (k : List Nat) :
    findRound (.mk (a :: s) f v cs) (b :: k) =
      if b = a then findRound (.mk s f v cs) k else 0 := by
  by_cases h : b = a
  · subst h
    simp [findRound, matchLen_cons]
  · simp [findRound, matchLen_cons, h]

theorem findChild_nil (key : List Nat) : findChild [] key = 0 := by
  simp [findChild]

theorem findChild_cons (c : TrieMapNode) (cs : List TrieMapNode) (b : Nat) (k : List Nat) :
    findChild (c :: cs) (b :: k) =
      if b = firstByte c then findRound c (b :: k) else findChild cs (b :: k) := by
  simp [findChild, Find_cons]

theorem findRound_cancel (p s : List Nat) (f v : Nat) (cs : List TrieMapNode) (x : List Nat) :
    findRound (.mk (p ++ s) f v cs) (p ++ x) = findRound (.mk s f v cs) x := by
  induction p with
  | nil => rfl
  | cons a p ih => simp [findRound_cons_cons, ih]

theorem findRound_self (str : List Nat) (f v : Nat) (cs : List TrieMapNode) :
    findRound (.mk str f v cs) str = if f % 2 = 1 then 0 else v := by
  have h := findRound_cancel str [] f v cs []
  simp only [List.append_nil] at h
  rw [h, findRound_nil_nil]

theorem findRound_append (str : List Nat) (f v : Nat) (cs : List TrieMapNode) (b : Nat)
    (k : List Nat) : findRound (.mk str f v cs) (str ++ b :: k) = findChild cs (b :: k) := by
  have h := findRound_cancel str [] f v cs (b :: k)
  simp only [List.append_nil] at h
  rw [h, findRound_nil_cons]

theorem findRound_other (str : List Nat) (f v : Nat) (cs : List TrieMapNode) (key : List Nat)
    (h1 : key ≠ str) (h2 : ∀ b k, key ≠ str ++ b :: k) :
    findRound (.mk str f v cs) key = 0 := by
  induction str generalizing key with
  | nil =>
    cases key with
    | nil => exact absurd rfl h1
    | cons b k => exact absurd rfl (h2 b k)
  | cons a s ih =>
    cases key with
    | nil => exact findRound_cons_nil a s f v cs
    | cons b k =>
      rw [findRound_cons_cons]
      split
      · rename_i hba
        subst hba
        apply ih
        · intro h; exact h1 (by rw [h])
        · intro b' k' h; exact h2 b' k' (by rw [h]; rfl)
      · rfl

/-- The lookup in a leaf. -/
theorem findRound_leaf (k2 : List Nat) (f v : Nat) (hf : f % 2 = 0) (x : List Nat) :
    findRound (.mk k2 f v []) x = if x = k2 then v else 0 := by
  by_cases h1 : x = k2
  · subst h1
    rw [findRound_self]; simp [hf]
  · by_cases h2 : ∃ b k, x = k2 ++ b :: k
    · obtain ⟨b, k, rfl⟩ := h2
      rw [findRound_append, findChild_nil]; simp
    · rw [findRound_other _ _ _ _ _ h1 (fun b k h => h2 ⟨b, k, h⟩)]; simp [h1]

/-- Changing the flags and the value of a node changes the lookup of the
node's own key only. -/
theorem findRound_flags (str : List Nat) (f v f' v' : Nat) (cs : List TrieMapNode)
    (x : List Nat) :
    findRound (.mk str f' v' cs) x =
      if x = str then (if f' % 2 = 1 then 0 else v') else findRound (.mk str f v cs) x := by
  by_cases h1 : x = str
  · subst h1
    rw [findRound_self]; simp
  · simp only [h1, if_false]
    by_cases h2 : ∃ b k, x = str ++ b :: k
    · obtain ⟨b, k, rfl⟩ := h2
      rw [findRound_append, findRound_append]
    · rw [findRound_other _ _ _ _ _ h1 (fun b k h => h2 ⟨b, k, h⟩),
        findRound_other _ _ _ _ _ h1 (fun b k h => h2 ⟨b, k, h⟩)]

/-- Changing the children of a node changes the lookup of the keys that
continue below the node only. -/
theorem findRound_children (str : List Nat) (f v : Nat) (cs cs' : List TrieMapNode)
    (x : List Nat) (h2 : ∀ b k, x ≠ str ++ b :: k) :
    findRound (.mk str f v cs') x = findRound (.mk str f v cs) x := by
  by_cases h1 : x = str
  · subst h1
    rw [findRound_self, findRound_self]
  · rw [findRound_other _ _ _ _ _ h1 h2, findRound_other _ _ _ _ _ h1 h2]

/-- The lookup does not see a split: a node with segment `p`, no live value
and the single child `s` answers like the node with segment `p ++ s`. -/
theorem findRound_split (p s : List Nat) (hs : s ≠ []) (F V f v : Nat)
    (cs : List TrieMapNode) (x : List Nat) :
    findRound (.mk p F V [.mk s f v cs]) x =
      if x = p then (if F % 2 = 1 then 0 else V) else findRound (.mk (p ++ s) f v cs) x := by
  obtain ⟨a, s', rfl⟩ := List.exists_cons_of_ne_nil hs
  by_cases h1 : x = p
  · subst h1
    rw [findRound_self]; simp
  · simp only [h1, if_false]
    by_cases h2 : ∃ b k, x = p ++ b :: k
    · obtain ⟨b, k, rfl⟩ := h2
      rw [findRound_append, findRound_cancel, findChild_cons, findChild_nil]
      by_cases hb : b = a
      · subst hb; simp [firstByte, TrieMapNode.str]
      · simp [firstByte, TrieMapNode.str, hb, findRound_cons_cons]
    · rw [findRound_other _ _ _ _ _ h1 (fun b k h => h2 ⟨b, k, h⟩), findRound_other]
      · intro h; exact h2 ⟨a, s', h⟩
      · intro b k h; exact h2 ⟨a, s' ++ b :: k, by simp [h]⟩

/-! ## The four cases of `TrieMapNode_Add` -/

theorem Add_nil (n : TrieMapNode) (v : Nat) (cb : Option (Nat → Nat → Nat)) :
    TrieMapNode_Add n [] v cb = (n, 0) := by
  cases n with
  | mk str flags value children => simp [TrieMapNode_Add]

/-- The key ends inside the segment: the node is split and the upper part
becomes terminal. -/
theorem Add_split_exact (p s : List Nat) (hp : p ≠ []) (hs : s ≠ []) (f val : Nat)
    (cs : List TrieMapNode) (v : Nat) (cb : Option (Nat → Nat → Nat)) :
    TrieMapNode_Add (.mk (p ++ s) f val cs) p v cb =
      (.mk p ((f &&& 252) ||| 2) v [.mk s f val cs], 1) := by
  have hlen : 0 < s.length := List.length_pos.mpr hs
  have hp' : 0 < p.length := List.length_pos.mpr hp
  simp only [TrieMapNode_Add, matchLen_append_self]
  rw [if_neg (by omega), if_pos (by simp; omega)]
  simp [__trieMapNode_Split, __newTrieMapNode, TrieMapNode.str, TrieMapNode.flags,
    TrieMapNode.children, TrieMapNode.value, TrieMapNode.len]

/-- The key leaves the segment in its middle: the node is split and the rest
of the key becomes a second child. -/
theorem Add_split_child (p : List Nat) (a : Nat) (k : List Nat) (b : Nat) (s : List Nat)
    (hab : a ≠ b) (f val : Nat) (cs : List TrieMapNode) (v : Nat)
    (cb : Option (Nat → Nat → Nat)) :
    TrieMapNode_Add (.mk (p ++ b :: s) f val cs) (p ++ a :: k) v cb =
      (.mk p (f &&& 252) 0 [.mk (b :: s) f val cs, .mk (a :: k) 2 v []], 1) := by
  simp only [TrieMapNode_Add, matchLen_append, matchLen_cons, if_neg hab]
  rw [if_neg (by simp), if_pos (by simp), if_neg (by simp)]
  simp [__trieMapNode_Split, __newTrieMapNode, TrieMapNode.str, TrieMapNode.flags,
    TrieMapNode.children, TrieMapNode.value, TrieMapNode.len, __trieMapNode_AddChild,
    TrieMapNode.numChildren]

/-- The key is the segment: the value is stored in the node. -/
theorem Add_exact (str : List Nat) (hstr : str ≠ []) (f val : Nat) (cs : List TrieMapNode)
    (v : Nat) (cb : Option (Nat → Nat → Nat)) :
    TrieMapNode_Add (.mk str f val cs) str v cb =
      (.mk str ((f ||| 2) &&& 254) (match cb with | some g => g val v | none => v) cs,
        if f &&& 2 ≠ 0 ∧ f &&& 1 = 0 then 0 else 1) := by
  have hlen : 0 < str.length := List.length_pos.mpr hstr
  have hm : matchLen str str = str.length := by
    have := matchLen_append str [] []
    simpa [matchLen_nil_left] using this
  simp only [TrieMapNode_Add, hm]
  rw [if_neg (by omega), if_neg (by omega)]
  simp

/-- The key goes on below the node: the matching child takes it, or a new
child is appended. -/
theorem Add_descend (str : List Nat) (b : Nat) (k : List Nat) (f val : Nat)
    (cs : List TrieMapNode) (v : Nat) (cb : Option (Nat → Nat → Nat)) :
    TrieMapNode_Add (.mk str f val cs) (str ++ b :: k) v cb =
      match addToChild cs (b :: k) v cb with
      | some (cs', rc) => (.mk str f val cs', rc)
      | none =>
        (.mk str f val ((cs ++ [TrieMapNode.mk (b :: k) 2 v []]).take ((cs.length + 1) % 256)),
          1) := by
  simp only [TrieMapNode_Add, matchLen_self_append]
  rw [if_neg (by simp), if_neg (by omega), if_neg (by simp)]
  simp [__newTrieMapNode, TrieMapNode.str, TrieMapNode.flags,
    TrieMapNode.children, TrieMapNode.value, __trieMapNode_AddChild,
    TrieMapNode.numChildren]

/-! ## Induction on nodes and the child scans -/

theorem TrieMapNode.induct' {P : TrieMapNode → Prop}
    (h : ∀ str f v cs, (∀ c ∈ cs, P c) → P (.mk str f v cs)) (n : TrieMapNode) : P n :=
  @TrieMapNode.rec P (fun l => ∀ c ∈ l, P c)
    (fun str f v cs ih => h str f v cs ih)
    (fun c hc => absurd hc (List.not_mem_nil c))
    (fun c cs ihc ihcs d hd => by
      rcases List.mem_cons.mp hd with rfl | hd
      · exact ihc
      · exact ihcs d hd)
    n

/-- A child scan either finds no child for byte `b` or stops at a first one. -/
theorem scan_cases (cs : List TrieMapNode) (b : Nat) :
    (∀ c ∈ cs, firstByte c ≠ b) ∨
      ∃ l1 c l2, cs = l1 ++ c :: l2 ∧ (∀ d ∈ l1, firstByte d ≠ b) ∧ firstByte c = b := by
  induction cs with
  | nil => exact Or.inl (fun c hc => absurd hc (List.not_mem_nil c))
  | cons c cs ih =>
    by_cases hc : firstByte c = b
    · exact Or.inr ⟨[], c, cs, rfl, fun d hd => absurd hd (List.not_mem_nil d), hc⟩
    · rcases ih with ih | ⟨l1, c', l2, rfl, h1, h2⟩
      · left
        intro d hd
        rcases List.mem_cons.mp hd with rfl | hd
        · exact hc
        · exact ih d hd
      · right
        refine ⟨c :: l1, c', l2, rfl, ?_, h2⟩
        intro d hd
        rcases List.mem_cons.mp hd with rfl | hd
        · exact hc
        · exact h1 d hd

theorem findChild_skip (l1 cs : List TrieMapNode) (b : Nat) (k : List Nat)
    (h : ∀ d ∈ l1, firstByte d ≠ b) :
    findChild (l1 ++ cs) (b :: k) = findChild cs (b :: k) := by
  induction l1 with
  | nil => rfl
  | cons d l1 ih =>
    have hd : ¬ b = firstByte d := fun e => h d (List.mem_cons_self _ _) e.symm
    rw [List.cons_append, findChild_cons, if_neg hd]
    exact ih (fun e he => h e (List.mem_cons_of_mem _ he))

theorem findChild_none (cs : List TrieMapNode) (b : Nat) (k : List Nat)
    (h : ∀ d ∈ cs, firstByte d ≠ b) : findChild cs (b :: k) = 0 := by
  have h2 := findChild_skip cs [] b k h
  rw [List.append_nil] at h2
  rw [h2, findChild_nil]

theorem findChild_hit (l1 : List TrieMapNode) (c : TrieMapNode) (l2 : List TrieMapNode)
    (b : Nat) (k : List Nat) (h : ∀ d ∈ l1, firstByte d ≠ b) (hc : firstByte c = b) :
    findChild (l1 ++ c :: l2) (b :: k) = findRound c (b :: k) := by
  rw [findChild_skip _ _ _ _ h, findChild_cons, if_pos hc.symm]

/-- Replacing a child by one with the same first byte does not change the
lookups that start with another byte. -/
theorem findChild_replace (l1 : List TrieMapNode) (c c' : TrieMapNode) (l2 : List TrieMapNode)
    (b : Nat) (k : List Nat) (hcc : firstByte c' = firstByte c) (hb : b ≠ firstByte c) :
    findChild (l1 ++ c' :: l2) (b :: k) = findChild (l1 ++ c :: l2) (b :: k) := by
  induction l1 with
  | nil =>
    simp only [List.nil_append, findChild_cons, hcc, if_neg hb]
  | cons d l1 ih =>
    simp only [List.cons_append, findChild_cons, ih]

theorem addToChild_none (cs : List TrieMapNode) (b : Nat) (k : List Nat) (v : Nat)
    (cb : Option (Nat → Nat → Nat)) (h : ∀ d ∈ cs, firstByte d ≠ b) :
    addToChild cs (b :: k) v cb = none := by
  induction cs with
  | nil => simp [addToChild]
  | cons d cs ih =>
    have hd : ¬ b = firstByte d := fun e => h d (List.mem_cons_self _ _) e.symm
    simp [addToChild, hd, ih (fun e he => h e (List.mem_cons_of_mem _ he))]

theorem addToChild_hit (l1 : List TrieMapNode) (c : TrieMapNode) (l2 : List TrieMapNode)
    (b : Nat) (k : List Nat) (v : Nat) (cb : Option (Nat → Nat → Nat))
    (h : ∀ d ∈ l1, firstByte d ≠ b) (hc : firstByte c = b) :
    addToChild (l1 ++ c :: l2) (b :: k) v cb =
      some (l1 ++ (TrieMapNode_Add c (b :: k) v cb).1 :: l2,
        (TrieMapNode_Add c (b :: k) v cb).2) := by
  induction l1 with
  | nil => simp [addToChild, hc]
  | cons d l1 ih =>
    have hd : ¬ b = firstByte d := fun e => h d (List.mem_cons_self _ _) e.symm
    simp [addToChild, hd, ih (fun e he => h e (List.mem_cons_of_mem _ he))]

theorem addFitsChild_none (cs : List TrieMapNode) (nc : Nat) (b : Nat) (k : List Nat)
    (h : ∀ d ∈ cs, firstByte d ≠ b) :
    addFitsChild cs nc (b :: k) = decide (nc < 255) := by
  induction cs with
  | nil => simp [addFitsChild]
  | cons d cs ih =>
    have hd : ¬ b = firstByte d := fun e => h d (List.mem_cons_self _ _) e.symm
    simp [addFitsChild, hd, ih (fun e he => h e (List.mem_cons_of_mem _ he))]

theorem addFitsChild_hit (l1 : List TrieMapNode) (c : TrieMapNode) (l2 : List TrieMapNode)
    (nc : Nat) (b : Nat) (k : List Nat)
    (h : ∀ d ∈ l1, firstByte d ≠ b) (hc : firstByte c = b) :
    addFitsChild (l1 ++ c :: l2) nc (b :: k) = addFits c (b :: k) := by
  induction l1 with
  | nil => simp [addFitsChild, hc]
  | cons d l1 ih =>
    have hd : ¬ b = firstByte d := fun e => h d (List.mem_cons_self _ _) e.symm
    simp [addFitsChild, hd, ih (fun e he => h e (List.mem_cons_of_mem _ he))]

theorem addFits_descend (str : List Nat) (b : Nat) (k : List Nat) (f val : Nat)
    (cs : List TrieMapNode) :
    addFits (.mk str f val cs) (str ++ b :: k) = addFitsChild cs cs.length (b :: k) := by
  simp only [addFits, matchLen_self_append]
  rw [if_neg (by simp), if_neg (by omega), if_neg (by simp)]
  simp

/-- The cases of a non-empty key against a segment. -/
theorem key_cases (key str : List Nat) :
    (∃ s, s ≠ [] ∧ str = key ++ s) ∨
    (∃ p a k b s, a ≠ b ∧ key = p ++ a :: k ∧ str = p ++ b :: s) ∨
    key = str ∨
    (∃ b k, key = str ++ b :: k) := by
  obtain ⟨p, k, s, hk, hs, -, hc⟩ := matchLen_decomp key str
  rcases hc with rfl | rfl | ⟨a, k', b, s', rfl, rfl, hab⟩
  · by_cases hs' : s = []
    · subst hs'; right; right; left; simp [hk, hs]
    · left; exact ⟨s, hs', by simp [hk, hs]⟩
  · cases k with
    | nil => right; right; left; simp [hk, hs]
    | cons b k => right; right; right; exact ⟨b, k, by simp [hk, hs]⟩
  · right; left; exact ⟨p, a, k', b, s', hab, hk, hs⟩

theorem nodeInv_iff (b : Nat) (str : List Nat) (flags value : Nat)
    (children : List TrieMapNode) :
    NodeInv b (.mk str flags value children) ↔
      str.length ≤ b ∧ children.length ≤ 255 ∧
      children.Pairwise (fun a c => firstByte a ≠ firstByte c) ∧
      (flags &&& 2 = 0 ∨ flags &&& 1 = 0) ∧
      (value ≠ 0 ↔ flags &&& 2 ≠ 0) ∧
      (∀ c ∈ children, c.str ≠ []) ∧
      (∀ c ∈ children, NodeInv (b - str.length) c) := by
  constructor
  · intro h
    cases h with
    | mk h1 h2 h3 h4 h5 h6 h7 => exact ⟨h1, h2, h3, h4, h5, h6, h7⟩
  · rintro ⟨h1, h2, h3, h4, h5, h6, h7⟩
    exact NodeInv.mk h1 h2 h3 h4 h5 h6 h7

theorem findChild_append_miss (cs : List TrieMapNode) (l : TrieMapNode) (b : Nat)
    (k : List Nat) (h : b ≠ firstByte l) :
    findChild (cs ++ [l]) (b :: k) = findChild cs (b :: k) := by
  induction cs with
  | nil => simp [findChild_cons, findChild_nil, h]
  | cons d cs ih => simp only [List.cons_append, findChild_cons, ih]

/-- The segment of the node that `TrieMapNode_Add` returns. -/
theorem Add_str (str : List Nat) (f val : Nat) (cs : List TrieMapNode) (key : List Nat)
    (v : Nat) (cb : Option (Nat → Nat → Nat)) :
    (TrieMapNode_Add (.mk str f val cs) key v cb).1.str =
      if key = [] then str else str.take (matchLen key str) := by
  by_cases hk : key = []
  · subst hk; simp [Add_nil, TrieMapNode.str]
  · rw [if_neg hk]
    rcases key_cases key str with ⟨s, hs, rfl⟩ | ⟨p, a, k, b, s, hab, rfl, rfl⟩ | rfl |
      ⟨b, k, rfl⟩
    · rw [Add_split_exact key s hk hs, matchLen_append_self]
      simp [TrieMapNode.str]
    · rw [Add_split_child p a k b s hab, matchLen_append, matchLen_cons, if_neg hab]
      simp [TrieMapNode.str]
    · rw [Add_exact key hk]
      have hm : matchLen key key = key.length := by
        have := matchLen_append key [] []
        simpa [matchLen_nil_left] using this
      simp [TrieMapNode.str, hm]
    · rw [Add_descend, matchLen_self_append]
      cases addToChild cs (b :: k) v cb with
      | none => simp [TrieMapNode.str]
      | some r => simp [TrieMapNode.str]

theorem Add_firstByte (c : TrieMapNode) (b : Nat) (k : List Nat) (v : Nat)
    (cb : Option (Nat → Nat → Nat)) (hc : c.str ≠ []) (hb : firstByte c = b) :
    (TrieMapNode_Add c (b :: k) v cb).1.str ≠ [] ∧
      firstByte (TrieMapNode_Add c (b :: k) v cb).1 = b := by
  cases c with
  | mk str f val cs =>
    simp only [TrieMapNode.str] at hc
    obtain ⟨a, s, rfl⟩ := List.exists_cons_of_ne_nil hc
    simp only [firstByte, TrieMapNode.str, List.headD_cons] at hb
    subst hb
    simp [firstByte, Add_str, matchLen_cons]

/-- The lookup after a split with a new second child: the new key answers the
new value, every other key answers as the unsplit node did. -/
theorem findRound_split_child (p : List Nat) (a : Nat) (k : List Nat) (b : Nat) (s : List Nat)
    (hab : a ≠ b) (F f val : Nat) (cs : List TrieMapNode) (v : Nat) (x : List Nat) :
    findRound (.mk p F 0 [.mk (b :: s) f val cs, .mk (a :: k) 2 v []]) x =
      if x = p ++ a :: k then v else findRound (.mk (p ++ b :: s) f val cs) x := by
  by_cases h1 : x = p
  · subst h1
    have hne : ¬ (x = x ++ a :: k) := by
      intro h
      have := congrArg List.length h
      simp only [List.length_append, List.length_cons] at this
      omega
    have h0 : findRound (.mk (x ++ b :: s) f val cs) x = 0 := by
      apply findRound_other
      · intro h
        have := congrArg List.length h
        simp only [List.length_append, List.length_cons] at this
        omega
      · intro b' k' h
        have := congrArg List.length h
        simp only [List.length_append, List.length_cons] at this
        omega
    rw [findRound_self, if_neg hne, h0]
    simp
  · by_cases h2 : ∃ b' k', x = p ++ b' :: k'
    · obtain ⟨b', k', rfl⟩ := h2
      rw [findRound_append, findRound_cancel, findChild_cons, findChild_cons, findChild_nil]
      simp only [firstByte, TrieMapNode.str, List.headD_cons]
      by_cases hb : b' = b
      · subst hb
        have hne : ¬ (p ++ b' :: k' = p ++ a :: k) := by
          simp; intro h; exact absurd h.symm hab
        rw [if_pos rfl, if_neg hne]
      · have hA : findRound (.mk (b :: s) f val cs) (b' :: k') = 0 := by
          rw [findRound_cons_cons, if_neg hb]
        rw [if_neg hb, hA]
        by_cases ha : b' = a
        · subst ha
          rw [if_pos rfl, findRound_leaf _ _ _ (by decide)]
          simp
        · rw [if_neg ha, if_neg]
          simp; intro h; exact absurd h ha
    · have h2' : ∀ b' k', x ≠ p ++ b' :: k' := fun b' k' h => h2 ⟨b', k', h⟩
      rw [findRound_other _ _ _ _ _ h1 h2', if_neg (h2' a k), findRound_other]
      · exact h2' b s
      · intro b' k' h; exact h2' b (s ++ b' :: k') (by simp [h])

/-- The effect of one `TrieMapNode_Add` on the lookups below a node. When no
child counter wraps, other keys are not touched and, without a callback, the
key gets the new value. In every case a live key gets the callback's value,
and the return code tells whether the key was absent. -/
theorem Add_spec (n : TrieMapNode) : ∀ (bd : Nat) (key : List Nat) (v : Nat)
    (cb : Option (Nat → Nat → Nat)), NodeInv bd n → key ≠ [] →
    (addFits n key = true →
      (∀ x, x ≠ key → findRound (TrieMapNode_Add n key v cb).1 x = findRound n x) ∧
      (cb = none → findRound (TrieMapNode_Add n key v cb).1 key = v)) ∧
    (∀ g, cb = some g → findRound n key ≠ 0 →
      findRound (TrieMapNode_Add n key v cb).1 key = g (findRound n key) v) ∧
    (TrieMapNode_Add n key v cb).2 = (if findRound n key = 0 then 1 else 0) := by
  induction n using TrieMapNode.induct' with
  | h str f val cs ih =>
    intro bd key v cb hinv hkey
    obtain ⟨-, -, -, hfl, hval, hne, hch⟩ := (nodeInv_iff _ _ _ _ _).mp hinv
    rcases key_cases key str with ⟨s, hs, rfl⟩ | ⟨p, a, k, b, s, hab, rfl, rfl⟩ | rfl |
      ⟨b, k, rfl⟩
    · -- the key ends inside the segment
      have h0 : findRound (.mk (key ++ s) f val cs) key = 0 := by
        apply findRound_other
        · intro h
          have := congrArg List.length h
          simp only [List.length_append] at this
          exact hs (List.length_eq_zero.mp (by omega))
        · intro b' k' h
          have := congrArg List.length h
          simp only [List.length_append, List.length_cons] at this
          omega
      rw [Add_split_exact key s hkey hs]
      refine ⟨fun _ => ⟨?_, ?_⟩, ?_, ?_⟩
      · intro x hx
        rw [findRound_split _ _ hs, if_neg hx]
      · intro _
        rw [findRound_split _ _ hs, if_pos rfl]
        simp
      · intro g _ hlive
        exact absurd h0 hlive
      · simp [h0]
    · -- the key leaves the segment in its middle
      have h0 : findRound (.mk (p ++ b :: s) f val cs) (p ++ a :: k) = 0 := by
        rw [findRound_cancel, findRound_cons_cons, if_neg hab]
      rw [Add_split_child p a k b s hab]
      refine ⟨fun _ => ⟨?_, ?_⟩, ?_, ?_⟩
      · intro x hx
        rw [findRound_split_child _ _ _ _ _ hab, if_neg hx]
      · intro _
        rw [findRound_split_child _ _ _ _ _ hab, if_pos rfl]
      · intro g _ hlive
        exact absurd h0 hlive
      · simp [h0]
    · -- the key is the segment
      rw [Add_exact key hkey]
      refine ⟨fun _ => ⟨?_, ?_⟩, ?_, ?_⟩
      · intro x hx
        rw [findRound_flags key f val, if_neg hx]
      · intro hcb
        subst hcb
        rw [findRound_self]
        simp
      · intro g hcb hlive
        subst hcb
        simp only [findRound_self] at hlive ⊢
        by_cases hd : f % 2 = 1
        · simp [hd] at hlive
        · simp [hd]
      · rw [findRound_self]
        by_cases hd : f % 2 = 1
        · have hd' : f &&& 1 ≠ 0 := by simp [hd]
          simp [hd]
        · have hd' : f % 2 = 0 := by omega
          by_cases ht : f &&& 2 = 0
          · have : val = 0 := by
              by_contra hv
              exact (hval.mp hv) ht
            simp [hd', ht, this]
          · have : val ≠ 0 := hval.mpr ht
            simp [hd', ht, this]
    · -- the key goes on below the node
      rw [addFits_descend, Add_descend]
      rcases scan_cases cs b with hnone | ⟨l1, c, l2, rfl, hl1, hc⟩
      · have h0 : findRound (.mk str f val cs) (str ++ b :: k) = 0 := by
          rw [findRound_append, findChild_none _ _ _ hnone]
        rw [addToChild_none _ _ _ _ _ hnone, addFitsChild_none _ _ _ _ hnone]
        refine ⟨?_, ?_, ?_⟩
        · intro hfits
          have hlt : cs.length < 255 := by simpa using hfits
          have htake : ((cs ++ [TrieMapNode.mk (b :: k) 2 v []]).take
              ((cs.length + 1) % 256)) = cs ++ [TrieMapNode.mk (b :: k) 2 v []] := by
            rw [Nat.mod_eq_of_lt (by omega)]
            apply List.take_of_length_le
            simp
          have hnew : findRound (.mk str f val (cs ++ [TrieMapNode.mk (b :: k) 2 v []]))
              (str ++ b :: k) = v := by
            rw [findRound_append, findChild_skip _ _ _ _ hnone, findChild_cons, if_pos (by rfl),
              findRound_leaf _ _ _ (by decide), if_pos rfl]
          simp only [htake]
          refine ⟨?_, fun _ => hnew⟩
          intro x hx
          by_cases h2 : ∃ b' k', x = str ++ b' :: k'
          · obtain ⟨b', k', rfl⟩ := h2
            rw [findRound_append, findRound_append]
            by_cases hb : b' = b
            · subst hb
              rw [findChild_skip _ _ _ _ hnone, findChild_none _ _ _ hnone, findChild_cons,
                if_pos (by rfl), findRound_leaf _ _ _ (by decide), if_neg]
              intro h; exact hx (by rw [h])
            · rw [findChild_append_miss]
              simpa [firstByte, TrieMapNode.str] using hb
          · exact findRound_children _ _ _ _ _ _ (fun b' k' h => h2 ⟨b', k', h⟩)
        · intro g _ hlive
          exact absurd h0 hlive
        · simp [h0]
      · rw [addFitsChild_hit _ _ _ _ _ _ hl1 hc]
        rw [addToChild_hit _ _ _ _ _ _ _ hl1 hc]
        have hcm : c ∈ l1 ++ c :: l2 := by simp
        obtain ⟨ihfit, ihg, ihr⟩ := ih c hcm _ (b :: k) v cb (hch c hcm) (by simp)
        obtain ⟨-, hfb⟩ := Add_firstByte c b k v cb (hne c hcm) hc
        have hold : findRound (.mk str f val (l1 ++ c :: l2)) (str ++ b :: k) =
            findRound c (b :: k) := by
          rw [findRound_append, findChild_hit _ _ _ _ _ hl1 hc]
        have hnew : findRound (.mk str f val (l1 ++ (TrieMapNode_Add c (b :: k) v cb).1 :: l2))
            (str ++ b :: k) = findRound (TrieMapNode_Add c (b :: k) v cb).1 (b :: k) := by
          rw [findRound_append, findChild_hit _ _ _ _ _ hl1 hfb]
        simp only []
        refine ⟨?_, ?_, ?_⟩
        · intro hfits
          obtain ⟨ihf, ihn⟩ := ihfit hfits
          refine ⟨?_, ?_⟩
          · intro x hx
            by_cases h2 : ∃ b' k', x = str ++ b' :: k'
            · obtain ⟨b', k', rfl⟩ := h2
              rw [findRound_append, findRound_append]
              by_cases hb : b' = b
              · subst hb
                rw [findChild_hit _ _ _ _ _ hl1 hfb, findChild_hit _ _ _ _ _ hl1 hc]
                apply ihf
                intro h; exact hx (by rw [h])
              · apply findChild_replace
                · rw [hfb, hc]
                · rw [hc]; exact hb
            · exact findRound_children _ _ _ _ _ _ (fun b' k' h => h2 ⟨b', k', h⟩)
          · intro hcb
            rw [hnew]; exact ihn hcb
        · intro g hcb hlive
          rw [hold] at hlive ⊢
          rw [hnew]; exact ihg g hcb hlive
        · rw [hold]; exact ihr

/-! ## `TrieMapNode_Add` keeps the invariant -/

theorem nodeInv_leaf (bd : Nat) (k2 : List Nat) (v : Nat) (hk : k2.length ≤ bd) (hv : v ≠ 0) :
    NodeInv bd (.mk k2 2 v []) := by
  rw [nodeInv_iff]
  refine ⟨hk, by simp, List.Pairwise.nil, Or.inr (by decide), ?_, ?_, ?_⟩
  · simp [hv]
  · intro c hc; exact absurd hc (List.not_mem_nil c)
  · intro c hc; exact absurd hc (List.not_mem_nil c)

/-- The lower part of a split node keeps the invariant. -/
theorem nodeInv_suffix (bd : Nat) (p s : List Nat) (f val : Nat) (cs : List TrieMapNode)
    (h : NodeInv bd (.mk (p ++ s) f val cs)) : NodeInv (bd - p.length) (.mk s f val cs) := by
  obtain ⟨h1, h2, h3, h4, h5, h6, h7⟩ := (nodeInv_iff _ _ _ _ _).mp h
  rw [nodeInv_iff]
  refine ⟨?_, h2, h3, h4, h5, h6, ?_⟩
  · simp only [List.length_append] at h1; omega
  · intro c hc
    have := h7 c hc
    simp only [List.length_append] at this
    rw [Nat.sub_sub]; exact this

theorem pairwise_replace (l1 : List TrieMapNode) (c c' : TrieMapNode) (l2 : List TrieMapNode)
    (hcc : firstByte c' = firstByte c)
    (h : (l1 ++ c :: l2).Pairwise (fun a d => firstByte a ≠ firstByte d)) :
    (l1 ++ c' :: l2).Pairwise (fun a d => firstByte a ≠ firstByte d) := by
  have e : (l1 ++ c' :: l2).map firstByte = (l1 ++ c :: l2).map firstByte := by
    simp [hcc]
  have h' : ((l1 ++ c :: l2).map firstByte).Pairwise (fun x y => x ≠ y) :=
    List.pairwise_map.mpr h
  rw [← e] at h'
  exact List.pairwise_map.mp h'

theorem Add_inv (n : TrieMapNode) : ∀ (bd : Nat) (key : List Nat) (v : Nat)
    (cb : Option (Nat → Nat → Nat)), NodeInv bd n → key.length ≤ bd → v ≠ 0 →
    (∀ g, cb = some g → ∀ old new, g old new ≠ 0) → addFits n key = true →
    NodeInv bd (TrieMapNode_Add n key v cb).1 := by
  induction n using TrieMapNode.induct' with
  | h str f val cs ih =>
    intro bd key v cb hinv hlen hv hcb hfits
    by_cases hkey : key = []
    · subst hkey; rw [Add_nil]; exact hinv
    obtain ⟨h1, h2, h3, h4, h5, h6, h7⟩ := (nodeInv_iff _ _ _ _ _).mp hinv
    rcases key_cases key str with ⟨s, hs, rfl⟩ | ⟨p, a, k, b, s, hab, rfl, rfl⟩ | rfl |
      ⟨b, k, rfl⟩
    · rw [Add_split_exact key s hkey hs, nodeInv_iff]
      refine ⟨hlen, by simp, by simp, Or.inr (by simp), by simp [hv], ?_, ?_⟩
      · intro c hc
        rw [List.mem_singleton] at hc
        subst hc; simpa [TrieMapNode.str] using hs
      · intro c hc
        rw [List.mem_singleton] at hc
        subst hc; exact nodeInv_suffix _ _ _ _ _ _ hinv
    · rw [Add_split_child p a k b s hab, nodeInv_iff]
      simp only [List.length_append, List.length_cons] at hlen
      refine ⟨by omega, by simp, ?_, Or.inr (by simp), by simp, ?_, ?_⟩
      · simp only [List.pairwise_cons, List.mem_singleton, forall_eq, List.not_mem_nil,
          false_implies, implies_true, List.Pairwise.nil, and_true]
        simpa [firstByte, TrieMapNode.str] using (Ne.symm hab)
      · intro c hc
        simp only [List.mem_cons, List.mem_singleton, List.not_mem_nil, or_false] at hc
        rcases hc with rfl | rfl <;> simp [TrieMapNode.str]
      · intro c hc
        simp only [List.mem_cons, List.mem_singleton, List.not_mem_nil, or_false] at hc
        rcases hc with rfl | rfl
        · exact nodeInv_suffix _ _ _ _ _ _ hinv
        · apply nodeInv_leaf _ _ _ _ hv
          simp only [List.length_cons]; omega
    · rw [Add_exact key hkey, nodeInv_iff]
      refine ⟨h1, h2, h3, Or.inr (by simp), ?_, h6, h7⟩
      cases cb with
      | none => simp [hv]
      | some g => simp [hcb g rfl]
    · rw [addFits_descend] at hfits
      rw [Add_descend]
      simp only [List.length_append, List.length_cons] at hlen
      rcases scan_cases cs b with hnone | ⟨l1, c, l2, rfl, hl1, hc⟩
      · rw [addFitsChild_none _ _ _ _ hnone] at hfits
        have hlt : cs.length < 255 := by simpa using hfits
        have htake : ((cs ++ [TrieMapNode.mk (b :: k) 2 v []]).take ((cs.length + 1) % 256)) =
            cs ++ [TrieMapNode.mk (b :: k) 2 v []] := by
          rw [Nat.mod_eq_of_lt (by omega)]
          apply List.take_of_length_le
          simp
        rw [addToChild_none _ _ _ _ _ hnone]
        simp only [htake]
        rw [nodeInv_iff]
        refine ⟨h1, by simp; omega, ?_, h4, h5, ?_, ?_⟩
        · rw [List.pairwise_append]
          refine ⟨h3, by simp, ?_⟩
          intro c hc d hd
          rw [List.mem_singleton] at hd
          subst hd
          simpa [firstByte, TrieMapNode.str] using hnone c hc
        · intro c hc
          rcases List.mem_append.mp hc with hc | hc
          · exact h6 c hc
          · rw [List.mem_singleton] at hc
            subst hc; simp [TrieMapNode.str]
        · intro c hc
          rcases List.mem_append.mp hc with hc | hc
          · exact h7 c hc
          · rw [List.mem_singleton] at hc
            subst hc
            apply nodeInv_leaf _ _ _ _ hv
            simp only [List.length_cons]; omega
      · rw [addFitsChild_hit _ _ _ _ _ _ hl1 hc] at hfits
        rw [addToChild_hit _ _ _ _ _ _ _ hl1 hc]
        have hcm : c ∈ l1 ++ c :: l2 := by simp
        obtain ⟨hne', hfb⟩ := Add_firstByte c b k v cb (h6 c hcm) hc
        have ihc := ih c hcm (bd - str.length) (b :: k) v cb (h7 c hcm)
          (by simp only [List.length_cons]; omega) hv hcb hfits
        simp only []
        rw [nodeInv_iff]
        refine ⟨h1, by simpa using h2, pairwise_replace _ _ _ _ (by rw [hfb, hc]) h3, h4, h5,
          ?_, ?_⟩
        · intro d hd
          rcases List.mem_append.mp hd with hd | hd
          · exact h6 d (List.mem_append_left _ hd)
          · rcases List.mem_cons.mp hd with rfl | hd
            · exact hne'
            · exact h6 d (List.mem_append_right _ (List.mem_cons_of_mem _ hd))
        · intro d hd
          rcases List.mem_append.mp hd with hd | hd
          · exact h7 d (List.mem_append_left _ hd)
          · rcases List.mem_cons.mp hd with rfl | hd
            · exact ihc
            · exact h7 d (List.mem_append_right _ (List.mem_cons_of_mem _ hd))

/-! ## Compaction -/

/-- The merge of a non-terminal node with its single child, with the length
in range. -/
theorem Merge_single (s : List Nat) (f val : Nat) (gs : List Nat) (gf gv : Nat)
    (gcs : List TrieMapNode) (hf : f &&& 2 = 0) (hlen : s.length + gs.length ≤ 65535) :
    __trieMapNode_MergeWithSingleChild (.mk s f val [.mk gs gf gv gcs]) =
      .mk (s ++ gs) gf gv gcs := by
  have hm : (s.length + gs.length) % 65536 = s.length + gs.length :=
    Nat.mod_eq_of_lt (by omega)
  simp [__trieMapNode_MergeWithSingleChild, __trieMapNode_isTerminal, TrieMapNode.flags,
    TrieMapNode.numChildren, TrieMapNode.children, __newTrieMapNode, TrieMapNode.str,
    TrieMapNode.value, TrieMapNode.len, hf, hm]

theorem Merge_other (n : TrieMapNode) (h : n.flags &&& 2 ≠ 0 ∨ n.children.length ≠ 1) :
    __trieMapNode_MergeWithSingleChild n = n := by
  simp only [__trieMapNode_MergeWithSingleChild, __trieMapNode_isTerminal,
    TrieMapNode.numChildren]
  rw [if_pos h]

/-- The merge changes no lookup and keeps the invariant and the first byte. -/
theorem Merge_spec (c : TrieMapNode) (bd : Nat) (hbd : bd ≤ 65535) (hinv : NodeInv bd c)
    (hne : c.str ≠ []) :
    (∀ x, findRound (__trieMapNode_MergeWithSingleChild c) x = findRound c x) ∧
    (__trieMapNode_MergeWithSingleChild c).str ≠ [] ∧
    firstByte (__trieMapNode_MergeWithSingleChild c) = firstByte c ∧
    NodeInv bd (__trieMapNode_MergeWithSingleChild c) := by
  by_cases h : c.flags &&& 2 ≠ 0 ∨ c.children.length ≠ 1
  · rw [Merge_other c h]
    exact ⟨fun _ => rfl, hne, rfl, hinv⟩
  · cases c with
    | mk s f val chs =>
      simp only [TrieMapNode.flags, TrieMapNode.children, not_or, not_not] at h
      obtain ⟨hf, hl⟩ := h
      obtain ⟨g, rfl⟩ := List.length_eq_one.mp hl
      obtain ⟨h1, h2, h3, h4, h5, h6, h7⟩ := (nodeInv_iff _ _ _ _ _).mp hinv
      have hg := h7 g (List.mem_singleton.mpr rfl)
      have hgne := h6 g (List.mem_singleton.mpr rfl)
      cases g with
      | mk gs gf gv gcs =>
        simp only [TrieMapNode.str] at hgne hne
        obtain ⟨g1, g2, g3, g4, g5, g6, g7⟩ := (nodeInv_iff _ _ _ _ _).mp hg
        have hval : val = 0 := by
          by_contra hv
          exact (h5.mp hv) hf
        rw [Merge_single s f val gs gf gv gcs hf (by omega)]
        refine ⟨?_, ?_, ?_, ?_⟩
        · intro x
          rw [findRound_split s gs hgne, hval]
          by_cases hx : x = s
          · subst hx
            rw [if_pos rfl, findRound_other]
            · simp
            · intro h
              have := congrArg List.length h
              simp only [List.length_append] at this
              exact hgne (List.length_eq_zero.mp (by omega))
            · intro b' k' h
              have := congrArg List.length h
              simp only [List.length_append, List.length_cons] at this
              omega
          · rw [if_neg hx]
        · simp [TrieMapNode.str, hne]
        · obtain ⟨a, s', rfl⟩ := List.exists_cons_of_ne_nil hne
          simp [firstByte, TrieMapNode.str]
        · rw [nodeInv_iff]
          refine ⟨by simp only [List.length_append]; omega, g2, g3, g4, g5, g6, ?_⟩
          intro d hd
          have := g7 d hd
          rw [Nat.sub_sub] at this
          simpa only [List.length_append] using this

/-- A tombstone without children answers no lookup and holds no value. -/
theorem dead_leaf (c : TrieMapNode) (bd : Nat) (hinv : NodeInv bd c)
    (h : c.numChildren = 0 ∧ __trieMapNode_isDeleted c ≠ 0) (freeCB : Bool) :
    (∀ x, findRound c x = 0) ∧ TrieMapNode_Free c freeCB = [] := by
  cases c with
  | mk s f val chs =>
    simp only [TrieMapNode.numChildren, TrieMapNode.children, __trieMapNode_isDeleted,
      TrieMapNode.flags] at h
    obtain ⟨hl, hd⟩ := h
    have hchs : chs = [] := List.length_eq_zero.mp hl
    subst hchs
    obtain ⟨-, -, -, h4, h5, -, -⟩ := (nodeInv_iff _ _ _ _ _).mp hinv
    have hd1 : f % 2 = 1 := by simpa using hd
    have ht : f &&& 2 = 0 := by
      rcases h4 with h4 | h4
      · exact h4
      · exact absurd h4 hd
    have hval : val = 0 := by
      by_contra hv
      exact (h5.mp hv) ht
    constructor
    · intro x
      by_cases h1 : x = s
      · subst h1; rw [findRound_self]; simp [hd1]
      · by_cases h2 : ∃ b k, x = s ++ b :: k
        · obtain ⟨b, k, rfl⟩ := h2
          rw [findRound_append, findChild_nil]
        · exact findRound_other _ _ _ _ _ h1 (fun b k h => h2 ⟨b, k, h⟩)
    · simp [TrieMapNode_Free, freeChildren, hval]

/-- One pass of the compaction loop over the children of a node: no lookup
changes, the invariant is kept, the first bytes that remain are a sublist of
the old ones, and no value is released. -/
theorem optimize_spec (freeCB : Bool) (bd : Nat) (hbd : bd ≤ 65535) (cs : List TrieMapNode) :
    (∀ c ∈ cs, c.str ≠ []) → (∀ c ∈ cs, NodeInv bd c) →
    cs.Pairwise (fun a c => firstByte a ≠ firstByte c) →
    (∀ b k, findChild (optimizeChildrenLoop cs freeCB).1 (b :: k) = findChild cs (b :: k)) ∧
    (∀ c ∈ (optimizeChildrenLoop cs freeCB).1, c.str ≠ []) ∧
    (∀ c ∈ (optimizeChildrenLoop cs freeCB).1, NodeInv bd c) ∧
    ((optimizeChildrenLoop cs freeCB).1.map firstByte).Sublist (cs.map firstByte) ∧
    (optimizeChildrenLoop cs freeCB).2 = [] := by
  induction cs with
  | nil =>
    intro _ _ _
    simp [optimizeChildrenLoop]
  | cons c rest ih =>
    intro hne hinv hpw
    have hc := hinv c (List.mem_cons_self _ _)
    by_cases hdead : c.numChildren = 0 ∧ __trieMapNode_isDeleted c ≠ 0
    · obtain ⟨hfind, hfree⟩ := dead_leaf c bd hc hdead freeCB
      have hr : optimizeChildrenLoop (c :: rest) freeCB = (rest, TrieMapNode_Free c freeCB) := by
        simp only [optimizeChildrenLoop]
        rw [if_pos hdead]
      rw [hr]
      refine ⟨?_, fun d hd => hne d (List.mem_cons_of_mem _ hd),
        fun d hd => hinv d (List.mem_cons_of_mem _ hd), ?_, hfree⟩
      · intro b k
        rw [findChild_cons]
        by_cases hb : b = firstByte c
        · rw [if_pos hb, hfind]
          apply findChild_none
          intro d hd
          rw [hb]
          exact Ne.symm ((List.pairwise_cons.mp hpw).1 d hd)
        · rw [if_neg hb]
      · simp only [List.map_cons]
        exact List.sublist_cons_self _ _
    · obtain ⟨ih1, ih2, ih3, ih4, ih5⟩ := ih (fun d hd => hne d (List.mem_cons_of_mem _ hd))
        (fun d hd => hinv d (List.mem_cons_of_mem _ hd)) (List.pairwise_cons.mp hpw).2
      have hr : optimizeChildrenLoop (c :: rest) freeCB =
          ((if c.numChildren = 1 then __trieMapNode_MergeWithSingleChild c else c) ::
            (optimizeChildrenLoop rest freeCB).1, (optimizeChildrenLoop rest freeCB).2) := by
        simp only [optimizeChildrenLoop]
        rw [if_neg hdead]
      rw [hr]
      have hcne := hne c (List.mem_cons_self _ _)
      have hm : (∀ x, findRound (if c.numChildren = 1 then
            __trieMapNode_MergeWithSingleChild c else c) x = findRound c x) ∧
          (if c.numChildren = 1 then __trieMapNode_MergeWithSingleChild c else c).str ≠ [] ∧
          firstByte (if c.numChildren = 1 then __trieMapNode_MergeWithSingleChild c else c) =
            firstByte c ∧
          NodeInv bd (if c.numChildren = 1 then __trieMapNode_MergeWithSingleChild c else c) := by
        by_cases h1 : c.numChildren = 1
        · rw [if_pos h1]
          exact Merge_spec c bd hbd hc hcne
        · rw [if_neg h1]
          exact ⟨fun _ => rfl, hcne, rfl, hc⟩
      obtain ⟨hm1, hm2, hm3, hm4⟩ := hm
      refine ⟨?_, ?_, ?_, ?_, ih5⟩
      · intro b k
        rw [findChild_cons, findChild_cons, hm3, hm1, ih1]
      · intro d hd
        rcases List.mem_cons.mp hd with rfl | hd
        · exact hm2
        · exact ih2 d hd
      · intro d hd
        rcases List.mem_cons.mp hd with rfl | hd
        · exact hm4
        · exact ih3 d hd
      · simp only [List.map_cons, hm3]
        exact List.Sublist.cons₂ _ ih4

/-- The compaction of a node changes no lookup below it, keeps its invariant
and its segment, and releases no value. -/
theorem optimizeChildren_spec (freeCB : Bool) (bd : Nat) (hbd : bd ≤ 65535) (n : TrieMapNode)
    (hinv : NodeInv bd n) :
    (∀ x, findRound (__trieMapNode_optimizeChildren n freeCB).1 x = findRound n x) ∧
    NodeInv bd (__trieMapNode_optimizeChildren n freeCB).1 ∧
    (__trieMapNode_optimizeChildren n freeCB).1.str = n.str ∧
    (__trieMapNode_optimizeChildren n freeCB).1.flags = n.flags ∧
    (__trieMapNode_optimizeChildren n freeCB).1.value = n.value ∧
    (__trieMapNode_optimizeChildren n freeCB).2 = [] := by
  cases n with
  | mk str f val cs =>
    obtain ⟨h1, h2, h3, h4, h5, h6, h7⟩ := (nodeInv_iff _ _ _ _ _).mp hinv
    obtain ⟨o1, o2, o3, o4, o5⟩ :=
      optimize_spec freeCB (bd - str.length) (by omega) cs h6 h7 h3
    simp only [__trieMapNode_optimizeChildren, TrieMapNode.children, TrieMapNode.str,
      TrieMapNode.flags, TrieMapNode.value]
    refine ⟨?_, ?_, trivial, trivial, trivial, o5⟩
    · intro x
      by_cases hx : ∃ b k, x = str ++ b :: k
      · obtain ⟨b, k, rfl⟩ := hx
        rw [findRound_append, findRound_append, o1]
      · exact findRound_children _ _ _ _ _ _ (fun b k h => hx ⟨b, k, h⟩)
    · rw [nodeInv_iff]
      refine ⟨h1, ?_, ?_, h4, h5, o2, o3⟩
      · have := o4.length_le
        simp only [List.length_map] at this
        omega
      · have hp : (cs.map firstByte).Pairwise (fun x y => x ≠ y) := List.pairwise_map.mpr h3
        exact List.pairwise_map.mp (hp.sublist o4)

/-! ## The cases of `TrieMapNode_Delete` -/

theorem Delete_nil (n : TrieMapNode) (freeCB : Bool) :
    TrieMapNode_Delete n [] freeCB = (n, 0, []) := by
  cases n with
  | mk str flags value children => simp [TrieMapNode_Delete]

/-- The key is the segment: the node becomes a tombstone unless it is one. -/
theorem Delete_exact (str : List Nat) (hstr : str ≠ []) (f val : Nat) (cs : List TrieMapNode)
    (freeCB : Bool) :
    TrieMapNode_Delete (.mk str f val cs) str freeCB =
      if f &&& 1 = 0 then
        ((__trieMapNode_optimizeChildren (.mk str ((f ||| 1) &&& 253) 0 cs) freeCB).1, 1,
          (__trieMapNode_optimizeChildren (.mk str ((f ||| 1) &&& 253) 0 cs) freeCB).2)
      else
        ((__trieMapNode_optimizeChildren (.mk str f val cs) freeCB).1, 0,
          (__trieMapNode_optimizeChildren (.mk str f val cs) freeCB).2) := by
  have hlen : 0 < str.length := List.length_pos.mpr hstr
  have hm : matchLen str str = str.length := by
    have := matchLen_append str [] []
    simpa [matchLen_nil_left] using this
  simp only [TrieMapNode_Delete, hm]
  rw [if_neg (by omega)]
  simp

/-- The key goes on below the node. -/
theorem Delete_descend (str : List Nat) (b : Nat) (k : List Nat) (f val : Nat)
    (cs : List TrieMapNode) (freeCB : Bool) :
    TrieMapNode_Delete (.mk str f val cs) (str ++ b :: k) freeCB =
      match deleteInChild cs (b :: k) freeCB with
      | some (cs', rc, tr) =>
        ((__trieMapNode_optimizeChildren (.mk str f val cs') freeCB).1, rc,
          tr ++ (__trieMapNode_optimizeChildren (.mk str f val cs') freeCB).2)
      | none =>
        ((__trieMapNode_optimizeChildren (.mk str f val cs) freeCB).1, 0,
          (__trieMapNode_optimizeChildren (.mk str f val cs) freeCB).2) := by
  simp only [TrieMapNode_Delete, matchLen_self_append]
  rw [if_neg (by simp), if_neg (by simp)]
  simp

/-- The key ends inside the segment or leaves it: only the compaction runs. -/
theorem Delete_miss (str : List Nat) (key : List Nat) (f val : Nat) (cs : List TrieMapNode)
    (freeCB : Bool) (hkey : key ≠ []) (h1 : key ≠ str) (h2 : ∀ b k, key ≠ str ++ b :: k) :
    TrieMapNode_Delete (.mk str f val cs) key freeCB =
      ((__trieMapNode_optimizeChildren (.mk str f val cs) freeCB).1, 0,
        (__trieMapNode_optimizeChildren (.mk str f val cs) freeCB).2) := by
  have hlen : 0 < key.length := List.length_pos.mpr hkey
  rcases key_cases key str with ⟨s, hs, rfl⟩ | ⟨p, a, k, b, s, hab, rfl, rfl⟩ | rfl |
    ⟨b, k, rfl⟩
  · have hs' : 0 < s.length := List.length_pos.mpr hs
    have hne : ¬ key.length = (key ++ s).length := by
      simp only [List.length_append]; omega
    simp only [TrieMapNode_Delete, matchLen_append_self]
    rw [if_neg (by omega)]
    simp [hne, hs]
  · simp only [TrieMapNode_Delete, matchLen_append, matchLen_cons, if_neg hab]
    rw [if_neg (by simp), if_neg (by simp), if_neg (by simp)]
  · exact absurd rfl h1
  · exact absurd rfl (h2 b k)

theorem deleteInChild_none (cs : List TrieMapNode) (b : Nat) (k : List Nat) (freeCB : Bool)
    (h : ∀ d ∈ cs, firstByte d ≠ b) : deleteInChild cs (b :: k) freeCB = none := by
  induction cs with
  | nil => simp [deleteInChild]
  | cons d cs ih =>
    have hd : ¬ b = firstByte d := fun e => h d (List.mem_cons_self _ _) e.symm
    simp [deleteInChild, hd, ih (fun e he => h e (List.mem_cons_of_mem _ he))]

theorem deleteInChild_hit (l1 : List TrieMapNode) (c : TrieMapNode) (l2 : List TrieMapNode)
    (b : Nat) (k : List Nat) (freeCB : Bool)
    (h : ∀ d ∈ l1, firstByte d ≠ b) (hc : firstByte c = b) :
    deleteInChild (l1 ++ c :: l2) (b :: k) freeCB =
      some (l1 ++ (TrieMapNode_Delete c (b :: k) freeCB).1 :: l2,
        (TrieMapNode_Delete c (b :: k) freeCB).2.1, (TrieMapNode_Delete c (b :: k) freeCB).2.2) := by
  induction l1 with
  | nil => simp [deleteInChild, hc]
  | cons d l1 ih =>
    have hd : ¬ b = firstByte d := fun e => h d (List.mem_cons_self _ _) e.symm
    simp [deleteInChild, hd, ih (fun e he => h e (List.mem_cons_of_mem _ he))]

/-- The effect of one `TrieMapNode_Delete` below a node: the key answers
`NULL` afterwards, every other key answers as before, the invariant and the
node's segment are kept, and no value is released. -/
theorem Delete_spec (n : TrieMapNode) : ∀ (bd : Nat) (key : List Nat) (freeCB : Bool),
    bd ≤ 65535 → NodeInv bd n → key ≠ [] →
    (∀ x, findRound (TrieMapNode_Delete n key freeCB).1 x =
      if x = key then 0 else findRound n x) ∧
    NodeInv bd (TrieMapNode_Delete n key freeCB).1 ∧
    (TrieMapNode_Delete n key freeCB).1.str = n.str ∧
    (TrieMapNode_Delete n key freeCB).2.2 = [] := by
  induction n using TrieMapNode.induct' with
  | h str f val cs ih =>
    intro bd key freeCB hbd hinv hkey
    obtain ⟨h1, h2, h3, h4, h5, h6, h7⟩ := (nodeInv_iff _ _ _ _ _).mp hinv
    by_cases hx1 : key = str
    · -- the key is the segment
      subst hx1
      rw [Delete_exact key hkey]
      by_cases hd : f &&& 1 = 0
      · rw [if_pos hd]
        have hm : NodeInv bd (.mk key ((f ||| 1) &&& 253) 0 cs) := by
          rw [nodeInv_iff]
          exact ⟨h1, h2, h3, Or.inl (by simp), by simp, h6, h7⟩
        obtain ⟨o1, o2, o3, -, -, o6⟩ := optimizeChildren_spec freeCB bd hbd _ hm
        refine ⟨?_, o2, o3, o6⟩
        intro x
        simp only []
        rw [o1, findRound_flags key f val]
        by_cases hx : x = key
        · simp [hx]
        · simp [hx]
      · rw [if_neg hd]
        obtain ⟨o1, o2, o3, -, -, o6⟩ := optimizeChildren_spec freeCB bd hbd _ hinv
        refine ⟨?_, o2, o3, o6⟩
        intro x
        simp only []
        rw [o1]
        by_cases hx : x = key
        · subst hx
          have hd1 : f % 2 = 1 := by simpa using hd
          rw [findRound_self]; simp [hd1]
        · simp [hx]
    · by_cases hx2 : ∃ b k, key = str ++ b :: k
      · -- the key goes on below the node
        obtain ⟨b, k, rfl⟩ := hx2
        rw [Delete_descend]
        rcases scan_cases cs b with hnone | ⟨l1, c, l2, rfl, hl1, hc⟩
        · rw [deleteInChild_none _ _ _ _ hnone]
          obtain ⟨o1, o2, o3, -, -, o6⟩ := optimizeChildren_spec freeCB bd hbd _ hinv
          refine ⟨?_, o2, o3, o6⟩
          intro x
          simp only []
          rw [o1]
          by_cases hx : x = str ++ b :: k
          · subst hx
            rw [if_pos rfl, findRound_append, findChild_none _ _ _ hnone]
          · rw [if_neg hx]
        · rw [deleteInChild_hit _ _ _ _ _ _ hl1 hc]
          have hcm : c ∈ l1 ++ c :: l2 := by simp
          obtain ⟨i1, i2, i3, i4⟩ := ih c hcm (bd - str.length) (b :: k) freeCB (by omega)
            (h7 c hcm) (by simp)
          have hfb : firstByte (TrieMapNode_Delete c (b :: k) freeCB).1 = firstByte c := by
            simp only [firstByte, i3]
          have hm : NodeInv bd (.mk str f val
              (l1 ++ (TrieMapNode_Delete c (b :: k) freeCB).1 :: l2)) := by
            rw [nodeInv_iff]
            refine ⟨h1, by simpa using h2, pairwise_replace _ _ _ _ hfb h3, h4, h5, ?_, ?_⟩
            · intro d hd
              rcases List.mem_append.mp hd with hd | hd
              · exact h6 d (List.mem_append_left _ hd)
              · rcases List.mem_cons.mp hd with rfl | hd
                · rw [i3]; exact h6 c hcm
                · exact h6 d (List.mem_append_right _ (List.mem_cons_of_mem _ hd))
            · intro d hd
              rcases List.mem_append.mp hd with hd | hd
              · exact h7 d (List.mem_append_left _ hd)
              · rcases List.mem_cons.mp hd with rfl | hd
                · exact i2
                · exact h7 d (List.mem_append_right _ (List.mem_cons_of_mem _ hd))
          obtain ⟨o1, o2, o3, -, -, o6⟩ := optimizeChildren_spec freeCB bd hbd _ hm
          refine ⟨?_, o2, o3, by simp only []; rw [i4, o6]; rfl⟩
          intro x
          simp only []
          rw [o1]
          by_cases h2 : ∃ b' k', x = str ++ b' :: k'
          · obtain ⟨b', k', rfl⟩ := h2
            rw [findRound_append, findRound_append]
            by_cases hb : b' = b
            · subst hb
              rw [findChild_hit _ _ _ _ _ hl1 (hfb.trans hc), findChild_hit _ _ _ _ _ hl1 hc, i1]
              by_cases hk : k' = k
              · subst hk; simp
              · simp [hk]
            · have hne : ¬ (str ++ b' :: k' = str ++ b :: k) := by
                simp; intro h; exact absurd h hb
              rw [if_neg hne]
              apply findChild_replace _ _ _ _ _ _ hfb
              rw [hc]; exact hb
          · have h2' : ∀ b' k', x ≠ str ++ b' :: k' := fun b' k' h => h2 ⟨b', k', h⟩
            rw [if_neg (h2' b k)]
            exact findRound_children _ _ _ _ _ _ h2'
      · -- the key ends inside the segment or leaves it
        have hx2' : ∀ b k, key ≠ str ++ b :: k := fun b k h => hx2 ⟨b, k, h⟩
        rw [Delete_miss _ _ _ _ _ _ hkey hx1 hx2']
        obtain ⟨o1, o2, o3, -, -, o6⟩ := optimizeChildren_spec freeCB bd hbd _ hinv
        refine ⟨?_, o2, o3, o6⟩
        intro x
        simp only []
        rw [o1]
        by_cases hx : x = key
        · subst hx
          rw [if_pos rfl, findRound_other _ _ _ _ _ hx1 hx2']
        · rw [if_neg hx]

/-! ## Reachable tries -/

theorem rootInv_new : RootInv NewTrieMap := by
  refine ⟨rfl, rfl, rfl, ?_⟩
  show NodeInv 65535 (.mk [] 0 0 [])
  rw [nodeInv_iff]
  refine ⟨by simp, by simp, List.Pairwise.nil, Or.inl (by decide), by simp, ?_, ?_⟩
  · intro c hc; exact absurd hc (List.not_mem_nil c)
  · intro c hc; exact absurd hc (List.not_mem_nil c)

theorem rootInv_add (t : TrieMapNode) (key : List Nat) (v : Nat)
    (cb : Option (Nat → Nat → Nat)) (ht : RootInv t) (hlen : key.length ≤ 65535) (hv : v ≠ 0)
    (hcb : ∀ g, cb = some g → ∀ old new, g old new ≠ 0) (hfits : addFits t key = true) :
    RootInv (TrieMapNode_Add t key v cb).1 := by
  obtain ⟨h1, h2, h3, h4⟩ := ht
  have hinv := Add_inv t 65535 key v cb h4 hlen hv hcb hfits
  cases t with
  | mk str f val cs =>
    simp only [TrieMapNode.str, TrieMapNode.flags, TrieMapNode.value] at h1 h2 h3
    subst h1 h2 h3
    refine ⟨?_, ?_, ?_, hinv⟩
    · rw [Add_str]; simp
    · cases key with
      | nil => rw [Add_nil]; rfl
      | cons b k =>
        have := Add_descend [] b k 0 0 cs v cb
        rw [List.nil_append] at this
        rw [this]
        cases addToChild cs (b :: k) v cb <;> rfl
    · cases key with
      | nil => rw [Add_nil]; rfl
      | cons b k =>
        have := Add_descend [] b k 0 0 cs v cb
        rw [List.nil_append] at this
        rw [this]
        cases addToChild cs (b :: k) v cb <;> rfl

theorem rootInv_delete (t : TrieMapNode) (key : List Nat) (freeCB : Bool) (ht : RootInv t) :
    RootInv (TrieMapNode_Delete t key freeCB).1 := by
  obtain ⟨h1, h2, h3, h4⟩ := ht
  cases key with
  | nil => rw [Delete_nil]; exact ⟨h1, h2, h3, h4⟩
  | cons b k =>
    obtain ⟨-, d2, d3, -⟩ := Delete_spec t 65535 (b :: k) freeCB (Nat.le_refl _) h4 (by simp)
    cases t with
    | mk str f val cs =>
      simp only [TrieMapNode.str, TrieMapNode.flags, TrieMapNode.value] at h1 h2 h3
      subst h1 h2 h3
      refine ⟨d3, ?_, ?_, d2⟩
      · have := Delete_descend [] b k 0 0 cs freeCB
        rw [List.nil_append] at this
        rw [this]
        cases deleteInChild cs (b :: k) freeCB <;> rfl
      · have := Delete_descend [] b k 0 0 cs freeCB
        rw [List.nil_append] at this
        rw [this]
        cases deleteInChild cs (b :: k) freeCB <;> rfl

/-- Every reachable trie satisfies the root invariant. -/
theorem reachable_rootInv {t : TrieMapNode} (h : Reachable t) : RootInv t := by
  induction h with
  | new => exact rootInv_new
  | add key v cb _ hlen hv hcb hfits ih => exact rootInv_add _ key v cb ih hlen hv hcb hfits
  | delete key freeCB _ ih => exact rootInv_delete _ key freeCB ih

theorem reachable_addAll (kvs : List (List Nat × Nat)) : ∀ (t : TrieMapNode), Reachable t →
    (∀ kv ∈ kvs, kv.1.length ≤ 65535 ∧ kv.2 ≠ 0) → addAllFits t kvs = true →
    Reachable (addAll t kvs) := by
  induction kvs with
  | nil => intro t ht _ _; exact ht
  | cons kv rest ih =>
    intro t ht hkv hfits
    obtain ⟨k, v⟩ := kv
    simp only [addAllFits, Bool.and_eq_true] at hfits
    simp only [addAll]
    apply ih
    · exact Reachable.add k v none ht (hkv (k, v) (List.mem_cons_self _ _)).1
        (hkv (k, v) (List.mem_cons_self _ _)).2 (fun g hg => by cases hg) hfits.1
    · intro kv' hkv'
      exact hkv kv' (List.mem_cons_of_mem _ hkv')
    · exact hfits.2

/-- Inserting the one-byte key `[n]` into the root with the children `[0]`, …,
`[n - 1]` appends the child `[n]`, as long as the counter does not wrap. -/
theorem add_fullRoot (n : Nat) (hn : n < 255) :
    (TrieMapNode_Add (fullRoot n) [n] (n + 1) none).1 = fullRoot (n + 1) ∧
      addFits (fullRoot n) [n] = true := by
  have hnone : ∀ d ∈ (List.range n).map (fun i => TrieMapNode.mk [i] 2 (i + 1) []),
      firstByte d ≠ n := by
    intro d hd
    obtain ⟨i, hi, rfl⟩ := List.mem_map.mp hd
    have := List.mem_range.mp hi
    simp only [firstByte, TrieMapNode.str, List.headD_cons]
    omega
  constructor
  · have h := Add_descend [] n [] 0 0
      ((List.range n).map (fun i => TrieMapNode.mk [i] 2 (i + 1) [])) (n + 1) none
    rw [List.nil_append, addToChild_none _ _ _ _ _ hnone] at h
    simp only [fullRoot]
    rw [h]
    simp only [List.length_map, List.length_range, Nat.mod_eq_of_lt (show n + 1 < 256 by omega)]
    rw [List.take_of_length_le (by simp), List.range_succ, List.map_append]
    rfl
  · have h := addFits_descend [] n [] 0 0
      ((List.range n).map (fun i => TrieMapNode.mk [i] 2 (i + 1) []))
    rw [List.nil_append, addFitsChild_none _ _ _ _ hnone] at h
    simp only [fullRoot]
    rw [h]
    simpa using hn

theorem reachable_fullRoot (n : Nat) (hn : n ≤ 255) : Reachable (fullRoot n) := by
  induction n with
  | zero => exact Reachable.new
  | succ n ih =>
    obtain ⟨h1, h2⟩ := add_fullRoot n (by omega)
    rw [← h1]
    exact Reachable.add [n] (n + 1) none (ih (by omega)) (by simp) (by omega)
      (fun g hg => by cases hg) h2

/-- The 256th child: the 8-bit counter wraps to zero and the root is left
without children. -/
theorem add_fullRoot_wraps (v : Nat) :
    TrieMapNode_Add (fullRoot 255) [255] v none = (.mk [] 0 0 [], 1) := by
  have hnone : ∀ d ∈ (List.range 255).map (fun i => TrieMapNode.mk [i] 2 (i + 1) []),
      firstByte d ≠ 255 := by
    intro d hd
    obtain ⟨i, hi, rfl⟩ := List.mem_map.mp hd
    have := List.mem_range.mp hi
    simp only [firstByte, TrieMapNode.str, List.headD_cons]
    omega
  have h := Add_descend [] 255 [] 0 0
    ((List.range 255).map (fun i => TrieMapNode.mk [i] 2 (i + 1) [])) v none
  rw [List.nil_append, addToChild_none _ _ _ _ _ hnone] at h
  simp only [fullRoot]
  rw [h]
  simp only [List.length_map, List.length_range]
  rfl

/-! ## Lookups in a trie after one call -/

theorem Find_add_other (t : TrieMapNode) (bd : Nat) (hinv : NodeInv bd t) (key : List Nat)
    (v : Nat) (cb : Option (Nat → Nat → Nat)) (hfits : addFits t key = true) (x : List Nat)
    (hx : x ≠ key) : TrieMapNode_Find (TrieMapNode_Add t key v cb).1 x = TrieMapNode_Find t x := by
  by_cases hkey : key = []
  · subst hkey; rw [Add_nil]
  · rw [Find_eq, Find_eq]
    by_cases hx0 : x = []
    · simp [hx0]
    · rw [if_neg hx0, if_neg hx0]
      exact ((Add_spec t bd key v cb hinv hkey).1 hfits).1 x hx

theorem Find_add_self (t : TrieMapNode) (bd : Nat) (hinv : NodeInv bd t) (key : List Nat)
    (v : Nat) (hkey : key ≠ []) (hfits : addFits t key = true) :
    TrieMapNode_Find (TrieMapNode_Add t key v none).1 key = v := by
  rw [Find_eq, if_neg hkey]
  exact ((Add_spec t bd key v none hinv hkey).1 hfits).2 rfl

theorem Find_delete (t : TrieMapNode) (ht : RootInv t) (key : List Nat) (freeCB : Bool)
    (x : List Nat) :
    TrieMapNode_Find (TrieMapNode_Delete t key freeCB).1 x =
      if x = key then 0 else TrieMapNode_Find t x := by
  by_cases hkey : key = []
  · subst hkey
    rw [Delete_nil]
    by_cases hx : x = []
    · subst hx; simp [Find_nil]
    · simp [hx]
  · rw [Find_eq, Find_eq]
    by_cases hx0 : x = []
    · subst hx0; simp
    · rw [if_neg hx0, if_neg hx0]
      exact (Delete_spec t 65535 key freeCB (Nat.le_refl _) ht.2.2.2 hkey).1 x

/-- The lookups after a run of insertions without callback. -/
theorem addAll_find (kvs : List (List Nat × Nat)) : ∀ (t : TrieMapNode), RootInv t →
    (kvs.map Prod.fst).Nodup →
    (∀ kv ∈ kvs, kv.1 ≠ [] ∧ kv.1.length ≤ TM_MAX_STRING_LEN ∧ kv.2 ≠ 0) →
    addAllFits t kvs = true →
    (∀ kv ∈ kvs, TrieMapNode_Find (addAll t kvs) kv.1 = kv.2) ∧
    (∀ k, k ∉ kvs.map Prod.fst → TrieMapNode_Find (addAll t kvs) k = TrieMapNode_Find t k) := by
  induction kvs with
  | nil =>
    intro t _ _ _ _
    exact ⟨fun kv hkv => absurd hkv (List.not_mem_nil kv), fun k _ => rfl⟩
  | cons kv rest ih =>
    intro t ht hnd hkv hfits
    obtain ⟨k, v⟩ := kv
    simp only [addAllFits, Bool.and_eq_true] at hfits
    simp only [List.map_cons, List.nodup_cons] at hnd
    obtain ⟨hk1, hk2, hk3⟩ := hkv (k, v) (List.mem_cons_self _ _)
    have ht1 := rootInv_add t k v none ht hk2 hk3 (fun g hg => by cases hg) hfits.1
    obtain ⟨ih1, ih2⟩ := ih _ ht1 hnd.2 (fun kv' h' => hkv kv' (List.mem_cons_of_mem _ h'))
      hfits.2
    simp only [addAll]
    constructor
    · intro kv' hkv'
      rcases List.mem_cons.mp hkv' with rfl | hkv'
      · rw [ih2 k hnd.1]
        exact Find_add_self t _ ht.2.2.2 k v hk1 hfits.1
      · exact ih1 kv' hkv'
    · intro x hx
      simp only [List.map_cons, List.mem_cons, not_or] at hx
      rw [ih2 x hx.2]
      exact Find_add_other t _ ht.2.2.2 k v none hfits.1 x hx.1

/-! ## The claims -/

/-- C1: after inserting pairwise distinct non-empty keys of at most 65535
bytes with non-`NULL` values into a fresh trie (no replace callback, no node
given more than 255 children), `TrieMapNode_Find` returns the inserted value
for every inserted key and `NULL` for every other key, proper prefixes and
extensions of inserted keys included. The values need not be distinct. -/
theorem C1_find_after_inserts (kvs : List (List Nat × Nat))
    (hkeys : (kvs.map Prod.fst).Nodup)
    (hkv : ∀ kv ∈ kvs, kv.1 ≠ [] ∧ kv.1.length ≤ TM_MAX_STRING_LEN ∧ kv.2 ≠ 0)
    (hfits : addAllFits NewTrieMap kvs = true) :
    (∀ kv ∈ kvs, TrieMapNode_Find (addAll NewTrieMap kvs) kv.1 = kv.2) ∧
    (∀ k, k ∉ kvs.map Prod.fst → TrieMapNode_Find (addAll NewTrieMap kvs) k = 0) := by
  obtain ⟨h1, h2⟩ := addAll_find kvs NewTrieMap rootInv_new hkeys hkv hfits
  refine ⟨h1, fun k hk => ?_⟩
  rw [h2 k hk]
  cases k <;> rfl

/-- C1, witness: the keys "apple", "app" and "apply" of the specification's
scenario. -/
theorem C1_find_after_inserts_witness :
    (([([97, 112, 112, 108, 101], 1), ([97, 112, 112], 2), ([97, 112, 112, 108, 121], 3)] :
        List (List Nat × Nat)).map Prod.fst).Nodup ∧
    (∀ kv ∈ ([([97, 112, 112, 108, 101], 1), ([97, 112, 112], 2),
        ([97, 112, 112, 108, 121], 3)] : List (List Nat × Nat)),
      TrieMapNode_Find (addAll NewTrieMap [([97, 112, 112, 108, 101], 1), ([97, 112, 112], 2),
        ([97, 112, 112, 108, 121], 3)]) kv.1 = kv.2) ∧
    (∀ k, k ∉ ([([97, 112, 112, 108, 101], 1), ([97, 112, 112], 2),
        ([97, 112, 112, 108, 121], 3)] : List (List Nat × Nat)).map Prod.fst →
      TrieMapNode_Find (addAll NewTrieMap [([97, 112, 112, 108, 101], 1), ([97, 112, 112], 2),
        ([97, 112, 112, 108, 121], 3)]) k = 0) :=
  ⟨by decide,
    C1_find_after_inserts
      [([97, 112, 112, 108, 101], 1), ([97, 112, 112], 2), ([97, 112, 112, 108, 121], 3)]
      (by decide) (by decide) (by decide)⟩

/-- C2: in a reachable trie, after `TrieMapNode_Delete` of a live key,
`TrieMapNode_Find` of that key returns `NULL`. -/
theorem C2_delete_then_find (t : TrieMapNode) (k : List Nat) (freeCB : Bool)
    (ht : Reachable t) (_hlive : TrieMapNode_Find t k ≠ 0) :
    TrieMapNode_Find (TrieMapNode_Delete t k freeCB).1 k = 0 := by
  rw [Find_delete t (reachable_rootInv ht), if_pos rfl]

/-- C2, witness: the key "cat" is inserted and then deleted. -/
theorem C2_delete_then_find_witness :
    Reachable (TrieMapNode_Add NewTrieMap [99, 97, 116] 7 none).1 ∧
    TrieMapNode_Find (TrieMapNode_Add NewTrieMap [99, 97, 116] 7 none).1 [99, 97, 116] ≠ 0 ∧
    TrieMapNode_Find (TrieMapNode_Delete (TrieMapNode_Add NewTrieMap [99, 97, 116] 7 none).1
      [99, 97, 116] true).1 [99, 97, 116] = 0 :=
  ⟨Reachable.add [99, 97, 116] 7 none Reachable.new (by decide) (by decide)
      (fun g hg => by cases hg) (by decide),
    by decide,
    C2_delete_then_find (TrieMapNode_Add NewTrieMap [99, 97, 116] 7 none).1 [99, 97, 116] true
      (Reachable.add [99, 97, 116] 7 none Reachable.new (by decide) (by decide)
        (fun g hg => by cases hg) (by decide))
      (by decide)⟩

theorem Add_rc (t : TrieMapNode) (bd : Nat) (hinv : NodeInv bd t) (key : List Nat) (v : Nat)
    (cb : Option (Nat → Nat → Nat)) (hkey : key ≠ []) :
    (TrieMapNode_Add t key v cb).2 = if TrieMapNode_Find t key = 0 then 1 else 0 := by
  rw [Find_eq, if_neg hkey]
  exact (Add_spec t bd key v cb hinv hkey).2.2

/-- C3: in a reachable trie, `TrieMapNode_Add` of a non-empty key returns 1
exactly when the key was not live before the call (`TrieMapNode_Find` gave
`NULL`) and 0 exactly when it was live; this holds for every value and every
callback. -/
theorem C3_add_return_code (t : TrieMapNode) (key : List Nat) (v : Nat)
    (cb : Option (Nat → Nat → Nat)) (ht : Reachable t) (hkey : key ≠ []) :
    ((TrieMapNode_Add t key v cb).2 = 1 ↔ TrieMapNode_Find t key = 0) ∧
    ((TrieMapNode_Add t key v cb).2 = 0 ↔ TrieMapNode_Find t key ≠ 0) := by
  rw [Add_rc t _ (reachable_rootInv ht).2.2.2 key v cb hkey]
  by_cases h : TrieMapNode_Find t key = 0
  · simp [h]
  · simp [h]

/-- C3, witness: the key "cat" is inserted, deleted and inserted again; the
last call returns 1. -/
theorem C3_add_return_code_witness :
    Reachable (TrieMapNode_Delete (TrieMapNode_Add NewTrieMap [99, 97, 116] 7 none).1
      [99, 97, 116] true).1 ∧
    ([99, 97, 116] : List Nat) ≠ [] ∧
    (((TrieMapNode_Add (TrieMapNode_Delete (TrieMapNode_Add NewTrieMap [99, 97, 116] 7 none).1
        [99, 97, 116] true).1 [99, 97, 116] 8 none).2 = 1 ↔
      TrieMapNode_Find (TrieMapNode_Delete (TrieMapNode_Add NewTrieMap [99, 97, 116] 7 none).1
        [99, 97, 116] true).1 [99, 97, 116] = 0) ∧
    ((TrieMapNode_Add (TrieMapNode_Delete (TrieMapNode_Add NewTrieMap [99, 97, 116] 7 none).1
        [99, 97, 116] true).1 [99, 97, 116] 8 none).2 = 0 ↔
      TrieMapNode_Find (TrieMapNode_Delete (TrieMapNode_Add NewTrieMap [99, 97, 116] 7 none).1
        [99, 97, 116] true).1 [99, 97, 116] ≠ 0)) :=
  ⟨Reachable.delete [99, 97, 116] true
      (Reachable.add [99, 97, 116] 7 none Reachable.new (by decide) (by decide)
        (fun g hg => by cases hg) (by decide)),
    by decide,
    C3_add_return_code _ [99, 97, 116] 8 none
      (Reachable.delete [99, 97, 116] true
        (Reachable.add [99, 97, 116] 7 none Reachable.new (by decide) (by decide)
          (fun g hg => by cases hg) (by decide)))
      (by decide)⟩

/-- C4, the code at the failing input: after inserting only "ab" and "ac" the
key "a" is not live (`TrieMapNode_Find` gives `NULL`), yet
`TrieMapNode_Delete` of "a" returns 1 and turns the branching node into a
tombstone. -/
theorem C4_delete_of_branch_node_returns_one :
    TrieMapNode_Find (addAll NewTrieMap [([97, 98], 1), ([97, 99], 2)]) [97] = 0 ∧
    TrieMapNode_Delete (addAll NewTrieMap [([97, 98], 1), ([97, 99], 2)]) [97] true =
      (.mk [] 0 0 [.mk [97] 1 0 [.mk [98] 2 1 [], .mk [99] 2 2 []]], 1, []) :=
  ⟨by decide, rfl⟩

/-- C5, counterexample: the root of a reachable trie has the 255 children
`[0]`, …, `[254]`; inserting the key `[255]` wraps the 8-bit child counter and
the key is not found afterwards. -/
theorem C5_counterexample :
    Reachable (fullRoot 255) ∧ ([255] : List Nat) ≠ [] ∧ (1 : Nat) ≠ 0 ∧
    TrieMapNode_Find (TrieMapNode_Add (fullRoot 255) [255] 1 none).1 [255] ≠ 1 := by
  refine ⟨reachable_fullRoot 255 (Nat.le_refl _), by decide, by decide, ?_⟩
  rw [add_fullRoot_wraps]
  decide

/-- C5, amended: in a reachable trie, after `TrieMapNode_Add` of a non-empty
key with a value and no replace callback, `TrieMapNode_Find` of the key
returns that value, whether the key was new, live or deleted before, provided
the call gives no node its 256th child. -/
theorem C5_find_after_add (t : TrieMapNode) (key : List Nat) (v : Nat) (ht : Reachable t)
    (hkey : key ≠ []) (_hv : v ≠ 0) (hfits : addFits t key = true) :
    TrieMapNode_Find (TrieMapNode_Add t key v none).1 key = v :=
  Find_add_self t _ (reachable_rootInv ht).2.2.2 key v hkey hfits

/-- C5, witness: the key "cat" is inserted, deleted and inserted again with
another value. -/
theorem C5_find_after_add_witness :
    Reachable (TrieMapNode_Delete (TrieMapNode_Add NewTrieMap [99, 97, 116] 7 none).1
      [99, 97, 116] true).1 ∧
    ([99, 97, 116] : List Nat) ≠ [] ∧ (8 : Nat) ≠ 0 ∧
    addFits (TrieMapNode_Delete (TrieMapNode_Add NewTrieMap [99, 97, 116] 7 none).1
      [99, 97, 116] true).1 [99, 97, 116] = true ∧
    TrieMapNode_Find (TrieMapNode_Add (TrieMapNode_Delete
      (TrieMapNode_Add NewTrieMap [99, 97, 116] 7 none).1 [99, 97, 116] true).1
      [99, 97, 116] 8 none).1 [99, 97, 116] = 8 :=
  ⟨Reachable.delete [99, 97, 116] true
      (Reachable.add [99, 97, 116] 7 none Reachable.new (by decide) (by decide)
        (fun g hg => by cases hg) (by decide)),
    by decide, by decide, by decide,
    C5_find_after_add _ [99, 97, 116] 8
      (Reachable.delete [99, 97, 116] true
        (Reachable.add [99, 97, 116] 7 none Reachable.new (by decide) (by decide)
          (fun g hg => by cases hg) (by decide)))
      (by decide) (by decide) (by decide)⟩

/-- C6: in a reachable trie, `TrieMapNode_Add` of a live key with a replace
callback returns 0 and stores the callback's result for the old and the new
value. -/
theorem C6_add_live_with_callback (t : TrieMapNode) (k : List Nat) (old v : Nat)
    (f : Nat → Nat → Nat) (ht : Reachable t) (hold : TrieMapNode_Find t k = old)
    (hlive : old ≠ 0) (_hv : v ≠ 0) (_hf : ∀ a b, f a b ≠ 0) :
    (TrieMapNode_Add t k v (some f)).2 = 0 ∧
    TrieMapNode_Find (TrieMapNode_Add t k v (some f)).1 k = f old v := by
  have hinv := (reachable_rootInv ht).2.2.2
  have hk : k ≠ [] := by
    intro h; subst h
    rw [Find_nil] at hold
    exact hlive hold.symm
  have hlive' : TrieMapNode_Find t k ≠ 0 := by rw [hold]; exact hlive
  constructor
  · rw [Add_rc t _ hinv k v _ hk, if_neg hlive']
  · rw [Find_eq, if_neg hk]
    rw [Find_eq, if_neg hk] at hold hlive'
    rw [← hold]
    exact (Add_spec t _ k v (some f) hinv hk).2.1 f rfl hlive'

/-- C6, witness: "cat" holds 7 and is inserted again with 8 and the callback
that adds the two values. -/
theorem C6_add_live_with_callback_witness :
    Reachable (TrieMapNode_Add NewTrieMap [99, 97, 116] 7 none).1 ∧
    TrieMapNode_Find (TrieMapNode_Add NewTrieMap [99, 97, 116] 7 none).1 [99, 97, 116] = 7 ∧
    (TrieMapNode_Add (TrieMapNode_Add NewTrieMap [99, 97, 116] 7 none).1 [99, 97, 116] 8
      (some (fun a b => a + b + 1))).2 = 0 ∧
    TrieMapNode_Find (TrieMapNode_Add (TrieMapNode_Add NewTrieMap [99, 97, 116] 7 none).1
      [99, 97, 116] 8 (some (fun a b => a + b + 1))).1 [99, 97, 116] = 7 + 8 + 1 :=
  ⟨Reachable.add [99, 97, 116] 7 none Reachable.new (by decide) (by decide)
      (fun g hg => by cases hg) (by decide),
    by decide,
    C6_add_live_with_callback (TrieMapNode_Add NewTrieMap [99, 97, 116] 7 none).1
      [99, 97, 116] 7 8 (fun a b => a + b + 1)
      (Reachable.add [99, 97, 116] 7 none Reachable.new (by decide) (by decide)
        (fun g hg => by cases hg) (by decide))
      (by decide) (by decide) (by decide) (fun a b => Nat.succ_ne_zero (a + b))⟩

/-- C7: in a reachable trie, `TrieMapNode_Delete` of a key leaves the result
of `TrieMapNode_Find` for every other key unchanged, whether or not the
deleted key was present and whatever the compaction removes or merges. -/
theorem C7_delete_frame (t : TrieMapNode) (k k' : List Nat) (freeCB : Bool)
    (ht : Reachable t) (hne : k ≠ k') :
    TrieMapNode_Find (TrieMapNode_Delete t k freeCB).1 k' = TrieMapNode_Find t k' := by
  rw [Find_delete t (reachable_rootInv ht), if_neg (Ne.symm hne)]

/-- C7, witness: the scenario with "hello" and "helloworld"; "hello" is
deleted and "helloworld" is still found. -/
theorem C7_delete_frame_witness :
    Reachable (addAll NewTrieMap [([104, 101, 108, 108, 111], 2),
      ([104, 101, 108, 108, 111, 119, 111, 114, 108, 100], 1)]) ∧
    ([104, 101, 108, 108, 111] : List Nat) ≠ [104, 101, 108, 108, 111, 119, 111, 114, 108, 100] ∧
    TrieMapNode_Find (TrieMapNode_Delete (addAll NewTrieMap [([104, 101, 108, 108, 111], 2),
      ([104, 101, 108, 108, 111, 119, 111, 114, 108, 100], 1)]) [104, 101, 108, 108, 111] true).1
      [104, 101, 108, 108, 111, 119, 111, 114, 108, 100] =
    TrieMapNode_Find (addAll NewTrieMap [([104, 101, 108, 108, 111], 2),
      ([104, 101, 108, 108, 111, 119, 111, 114, 108, 100], 1)])
      [104, 101, 108, 108, 111, 119, 111, 114, 108, 100] :=
  ⟨reachable_addAll _ _ Reachable.new (by decide) (by decide), by decide,
    C7_delete_frame _ [104, 101, 108, 108, 111]
      [104, 101, 108, 108, 111, 119, 111, 114, 108, 100] true
      (reachable_addAll _ _ Reachable.new (by decide) (by decide)) (by decide)⟩

/-- C8: `TrieMapNode_Add` with a key of length 0 returns 0 and gives back the
node it was given, whatever the node, the value and the callback. -/
theorem C8_add_empty_key (n : TrieMapNode) (v : Nat) (cb : Option (Nat → Nat → Nat)) :
    (TrieMapNode_Add n [] v cb).2 = 0 ∧ (TrieMapNode_Add n [] v cb).1 = n := by
  rw [Add_nil]
  exact ⟨rfl, rfl⟩

/-- C9, the code at the failing input: "cat" holds the value 7; the call
`TrieMapNode_Delete` with a callback returns 1 and removes the node, and the
callback is not invoked at all: the value is dropped, not released. -/
theorem C9_delete_releases_nothing :
    TrieMapNode_Find (TrieMapNode_Add NewTrieMap [99, 97, 116] 7 none).1 [99, 97, 116] = 7 ∧
    TrieMapNode_Delete (TrieMapNode_Add NewTrieMap [99, 97, 116] 7 none).1 [99, 97, 116] true =
      (.mk [] 0 0 [], 1, []) :=
  ⟨by decide, rfl⟩

/-- In a reachable trie no call of `TrieMapNode_Delete` releases a value,
through the callback or otherwise. -/
theorem Delete_trace_empty (t : TrieMapNode) (key : List Nat) (freeCB : Bool)
    (ht : Reachable t) : (TrieMapNode_Delete t key freeCB).2.2 = [] := by
  by_cases hkey : key = []
  · subst hkey; rw [Delete_nil]
  · exact (Delete_spec t 65535 key freeCB (Nat.le_refl _) (reachable_rootInv ht).2.2.2 hkey).2.2.2

/-! ## Freeing a trie -/

theorem findChild_empty_key (cs : List TrieMapNode) : findChild cs [] = 0 := by
  induction cs with
  | nil => rfl
  | cons c cs ih =>
    simp only [findChild, Find_nil, ih]
    split <;> rfl

theorem liveKeys_prefix (str : List Nat) (f val : Nat) (cs : List TrieMapNode) (k : List Nat)
    (h : k ∈ liveKeys (.mk str f val cs)) : ∃ r, k = str ++ r := by
  simp only [liveKeys, List.mem_append, List.mem_map] at h
  rcases h with ⟨r, -, rfl⟩ | h
  · exact ⟨r, rfl⟩
  · by_cases hv : val ≠ 0
    · rw [if_pos hv, List.mem_singleton] at h
      exact ⟨[], by simp [h]⟩
    · rw [if_neg hv] at h
      exact absurd h (List.not_mem_nil k)

theorem liveKeys_head (c : TrieMapNode) (hc : c.str ≠ []) (k : List Nat) (h : k ∈ liveKeys c) :
    ∃ k', k = firstByte c :: k' := by
  cases c with
  | mk str f val cs =>
    simp only [TrieMapNode.str] at hc
    obtain ⟨a, s, rfl⟩ := List.exists_cons_of_ne_nil hc
    obtain ⟨r, rfl⟩ := liveKeys_prefix _ _ _ _ _ h
    exact ⟨s ++ r, by simp [firstByte, TrieMapNode.str]⟩

theorem liveKeysChildren_head (cs : List TrieMapNode) (hne : ∀ c ∈ cs, c.str ≠ [])
    (k : List Nat) (h : k ∈ liveKeysChildren cs) : ∃ c ∈ cs, ∃ k', k = firstByte c :: k' := by
  induction cs with
  | nil => simp [liveKeysChildren] at h
  | cons c cs ih =>
    simp only [liveKeysChildren, List.mem_append] at h
    rcases h with h | h
    · exact ⟨c, List.mem_cons_self _ _, liveKeys_head c (hne c (List.mem_cons_self _ _)) k h⟩
    · obtain ⟨d, hd, hk⟩ := ih (fun d hd => hne d (List.mem_cons_of_mem _ hd)) h
      exact ⟨d, List.mem_cons_of_mem _ hd, hk⟩

/-- The releases made for the children of a node are the lookups of their
live keys, and these keys are exactly the keys found among the children. -/
theorem freeChildren_spec (freeCB : Bool) (cs : List TrieMapNode) :
    (∀ c ∈ cs, c.str ≠ []) → cs.Pairwise (fun a c => firstByte a ≠ firstByte c) →
    (∀ c ∈ cs,
      TrieMapNode_Free c freeCB = (liveKeys c).map (fun k =>
        if freeCB then Release.viaCB (findRound c k) else Release.viaFree (findRound c k)) ∧
      (∀ k, k ∈ liveKeys c ↔ findRound c k ≠ 0) ∧ (liveKeys c).Nodup) →
    freeChildren cs freeCB = (liveKeysChildren cs).map (fun k =>
      if freeCB then Release.viaCB (findChild cs k) else Release.viaFree (findChild cs k)) ∧
    (∀ k, k ∈ liveKeysChildren cs ↔ findChild cs k ≠ 0) ∧ (liveKeysChildren cs).Nodup := by
  induction cs with
  | nil =>
    intro _ _ _
    simp [freeChildren, liveKeysChildren, findChild_nil]
  | cons c rest ih =>
    intro hne hpw hall
    obtain ⟨a1, a2, a3⟩ := hall c (List.mem_cons_self _ _)
    obtain ⟨i1, i2, i3⟩ := ih (fun d hd => hne d (List.mem_cons_of_mem _ hd))
      (List.pairwise_cons.mp hpw).2 (fun d hd => hall d (List.mem_cons_of_mem _ hd))
    have hcne := hne c (List.mem_cons_self _ _)
    have hfirst : ∀ k ∈ liveKeys c, findChild (c :: rest) k = findRound c k := by
      intro k hk
      obtain ⟨k', rfl⟩ := liveKeys_head c hcne k hk
      rw [findChild_cons, if_pos rfl]
    have hrest : ∀ k ∈ liveKeysChildren rest, findChild (c :: rest) k = findChild rest k := by
      intro k hk
      obtain ⟨d, hd, k', rfl⟩ :=
        liveKeysChildren_head rest (fun d hd => hne d (List.mem_cons_of_mem _ hd)) k hk
      rw [findChild_cons, if_neg (Ne.symm ((List.pairwise_cons.mp hpw).1 d hd))]
    refine ⟨?_, ?_, ?_⟩
    · simp only [freeChildren, liveKeysChildren, List.map_append]
      rw [a1, i1]
      congr 1
      · apply List.map_congr_left
        intro k hk
        rw [hfirst k hk]
      · apply List.map_congr_left
        intro k hk
        rw [hrest k hk]
    · intro k
      simp only [liveKeysChildren, List.mem_append]
      constructor
      · rintro (hk | hk)
        · rw [hfirst k hk]; exact (a2 k).mp hk
        · rw [hrest k hk]; exact (i2 k).mp hk
      · intro hk
        cases k with
        | nil => exact absurd (findChild_empty_key _) hk
        | cons b k' =>
          rw [findChild_cons] at hk
          by_cases hb : b = firstByte c
          · rw [if_pos hb] at hk
            exact Or.inl ((a2 _).mpr hk)
          · rw [if_neg hb] at hk
            exact Or.inr ((i2 _).mpr hk)
    · simp only [liveKeysChildren]
      apply List.Nodup.append a3 i3
      intro k hk1 hk2
      obtain ⟨k1, rfl⟩ := liveKeys_head c hcne k hk1
      obtain ⟨d, hd, k2, h2⟩ :=
        liveKeysChildren_head rest (fun d hd => hne d (List.mem_cons_of_mem _ hd)) _ hk2
      have : firstByte c = firstByte d := by
        have := congrArg (fun l => List.headD l 0) h2
        simpa using this
      exact (List.pairwise_cons.mp hpw).1 d hd this

/-- The releases made by `TrieMapNode_Free` are the lookups of the live keys
below the node, each key once. -/
theorem Free_spec (freeCB : Bool) (n : TrieMapNode) : ∀ (bd : Nat), NodeInv bd n →
    TrieMapNode_Free n freeCB = (liveKeys n).map (fun k =>
      if freeCB then Release.viaCB (findRound n k) else Release.viaFree (findRound n k)) ∧
    (∀ k, k ∈ liveKeys n ↔ findRound n k ≠ 0) ∧ (liveKeys n).Nodup := by
  induction n using TrieMapNode.induct' with
  | h str f val cs ih =>
    intro bd hinv
    obtain ⟨-, -, h3, h4, h5, h6, h7⟩ := (nodeInv_iff _ _ _ _ _).mp hinv
    obtain ⟨c1, c2, c3⟩ := freeChildren_spec freeCB cs h6 h3 (fun c hc => ih c hc _ (h7 c hc))
    have hnil : [] ∉ liveKeysChildren cs := by
      intro h
      exact ((c2 []).mp h) (findChild_empty_key cs)
    have hself : val ≠ 0 → findRound (.mk str f val cs) str = val := by
      intro hv
      have ht : f &&& 2 ≠ 0 := h5.mp hv
      have hd : f &&& 1 = 0 := by
        rcases h4 with h4 | h4
        · exact absurd h4 ht
        · exact h4
      have hd' : f % 2 = 0 := by simpa using hd
      rw [findRound_self]; simp [hd']
    have hbelow : ∀ k ∈ liveKeysChildren cs,
        findRound (.mk str f val cs) (str ++ k) = findChild cs k := by
      intro k hk
      obtain ⟨d, -, k', rfl⟩ := liveKeysChildren_head cs h6 k hk
      rw [findRound_append]
    refine ⟨?_, ?_, ?_⟩
    · simp only [TrieMapNode_Free, liveKeys, List.map_append, List.map_map]
      rw [c1]
      congr 1
      · apply List.map_congr_left
        intro k hk
        simp only [Function.comp_apply]
        rw [hbelow k hk]
      · by_cases hv : val ≠ 0
        · rw [if_pos hv, if_pos hv]
          simp only [List.map_cons, List.map_nil]
          rw [hself hv]
        · rw [if_neg hv, if_neg hv]
          rfl
    · intro k
      simp only [liveKeys, List.mem_append, List.mem_map]
      by_cases h1 : k = str
      · subst h1
        constructor
        · rintro (⟨r, hr, he⟩ | hk)
          · have : r = [] := by
              have := congrArg List.length he
              simp only [List.length_append] at this
              exact List.length_eq_zero.mp (by omega)
            subst this
            exact absurd hr hnil
          · by_cases hv : val ≠ 0
            · rw [hself hv]; exact hv
            · rw [if_neg hv] at hk
              exact absurd hk (List.not_mem_nil _)
        · intro hk
          right
          have hv : val ≠ 0 := by
            intro hv
            apply hk
            rw [findRound_self, hv]; simp
          rw [if_pos hv]
          exact List.mem_singleton.mpr rfl
      · by_cases h2 : ∃ b k', k = str ++ b :: k'
        · obtain ⟨b, k', rfl⟩ := h2
          rw [findRound_append]
          constructor
          · rintro (⟨r, hr, he⟩ | hk)
            · have := List.append_cancel_left he
              subst this
              exact (c2 _).mp hr
            · by_cases hv : val ≠ 0
              · rw [if_pos hv, List.mem_singleton] at hk
                exact absurd hk h1
              · rw [if_neg hv] at hk
                exact absurd hk (List.not_mem_nil _)
          · intro hk
            exact Or.inl ⟨b :: k', (c2 _).mpr hk, rfl⟩
        · have h2' : ∀ b k', k ≠ str ++ b :: k' := fun b k' h => h2 ⟨b, k', h⟩
          rw [findRound_other _ _ _ _ _ h1 h2']
          constructor
          · rintro (⟨r, hr, he⟩ | hk)
            · cases r with
              | nil => exact absurd hr hnil
              | cons b k' => exact absurd he.symm (h2' b k')
            · by_cases hv : val ≠ 0
              · rw [if_pos hv, List.mem_singleton] at hk
                exact absurd hk h1
              · rw [if_neg hv] at hk
                exact absurd hk (List.not_mem_nil _)
          · intro hk
            exact absurd rfl hk
    · simp only [liveKeys]
      apply List.Nodup.append
      · exact List.Nodup.map (fun x y h => List.append_cancel_left h) c3
      · by_cases hv : val ≠ 0
        · rw [if_pos hv]; exact List.nodup_singleton _
        · rw [if_neg hv]; exact List.nodup_nil
      · intro k hk1 hk2
        by_cases hv : val ≠ 0
        · rw [if_pos hv, List.mem_singleton] at hk2
          subst hk2
          obtain ⟨r, hr, he⟩ := List.mem_map.mp hk1
          have : r = [] := by
            have := congrArg List.length he
            simp only [List.length_append] at this
            exact List.length_eq_zero.mp (by omega)
          subst this
          exact hnil hr
        · rw [if_neg hv] at hk2
          exact absurd hk2 (List.not_mem_nil _)

theorem freeChildren_flatten (freeCB : Bool) (cs : List TrieMapNode) :
    freeChildren cs freeCB = (cs.map (fun c => TrieMapNode_Free c freeCB)).flatten := by
  induction cs with
  | nil => rfl
  | cons c cs ih => simp [freeChildren, ih]

/-- C10: for a reachable trie, `TrieMapNode_Free` with a callback invokes the
callback exactly once for the value of each live entry and on nothing else:
the calls are the values `TrieMapNode_Find` gives for a duplicate-free list of
exactly the live keys. For every node the calls made for its children, in
child-array order, come before the call for the node's own value. -/
theorem C10_free_releases_live_values (t : TrieMapNode) (ht : Reachable t) :
    (∃ ks : List (List Nat), ks.Nodup ∧ (∀ k, k ∈ ks ↔ TrieMapNode_Find t k ≠ 0) ∧
      TrieMapNode_Free t true = ks.map (fun k => Release.viaCB (TrieMapNode_Find t k))) ∧
    (∀ str flags value children,
      TrieMapNode_Free (.mk str flags value children) true =
        (children.map (fun c => TrieMapNode_Free c true)).flatten ++
          (if value ≠ 0 then [Release.viaCB value] else [])) := by
  constructor
  · obtain ⟨h1, h2, h3, h4⟩ := reachable_rootInv ht
    obtain ⟨f1, f2, f3⟩ := Free_spec true t _ h4
    have hroot : findRound t [] = 0 := by
      cases t with
      | mk str f val cs =>
        simp only [TrieMapNode.str, TrieMapNode.flags, TrieMapNode.value] at h1 h2 h3
        subst h1 h2 h3
        rw [findRound_nil_nil]; rfl
    refine ⟨liveKeys t, f3, ?_, ?_⟩
    · intro k
      rw [f2 k, Find_eq]
      by_cases hk : k = []
      · subst hk; simp [hroot]
      · rw [if_neg hk]
    · rw [f1]
      apply List.map_congr_left
      intro k hk
      have hk0 : k ≠ [] := by
        intro h; subst h
        exact ((f2 []).mp hk) hroot
      rw [Find_eq, if_neg hk0]
      rfl
  · intro str flags value children
    simp only [TrieMapNode_Free, freeChildren_flatten]
    rfl

/-- C10, witness: the trie holding "apple", "app" and "apply". -/
theorem C10_free_releases_live_values_witness :
    Reachable (addAll NewTrieMap [([97, 112, 112, 108, 101], 1), ([97, 112, 112], 2),
      ([97, 112, 112, 108, 121], 3)]) ∧
    ((∃ ks : List (List Nat), ks.Nodup ∧
      (∀ k, k ∈ ks ↔ TrieMapNode_Find (addAll NewTrieMap [([97, 112, 112, 108, 101], 1),
        ([97, 112, 112], 2), ([97, 112, 112, 108, 121], 3)]) k ≠ 0) ∧
      TrieMapNode_Free (addAll NewTrieMap [([97, 112, 112, 108, 101], 1), ([97, 112, 112], 2),
        ([97, 112, 112, 108, 121], 3)]) true =
        ks.map (fun k => Release.viaCB (TrieMapNode_Find (addAll NewTrieMap
          [([97, 112, 112, 108, 101], 1), ([97, 112, 112], 2),
            ([97, 112, 112, 108, 121], 3)]) k))) ∧
    (∀ str flags value children,
      TrieMapNode_Free (.mk str flags value children) true =
        (children.map (fun c => TrieMapNode_Free c true)).flatten ++
          (if value ≠ 0 then [Release.viaCB value] else []))) :=
  ⟨reachable_addAll _ _ Reachable.new (by decide) (by decide),
    C10_free_releases_live_values _
      (reachable_addAll _ _ Reachable.new (by decide) (by decide))⟩

/-! ## Memory accounting -/

theorem memUsageChildren_sum (cs : List TrieMapNode)
    (ih : ∀ c ∈ cs, TrieMapNode_MemUsage c =
      ((allNodes c).map (fun m => __trieMapNode_Sizeof m.numChildren m.len)).sum) :
    memUsageChildren cs =
      ((allNodesChildren cs).map (fun m => __trieMapNode_Sizeof m.numChildren m.len)).sum := by
  induction cs with
  | nil => rfl
  | cons c cs ihl =>
    simp only [memUsageChildren, allNodesChildren, List.map_append, List.sum_append]
    rw [ih c (List.mem_cons_self _ _), ihl (fun d hd => ih d (List.mem_cons_of_mem _ hd))]

theorem MemUsage_sum (n : TrieMapNode) :
    TrieMapNode_MemUsage n =
      ((allNodes n).map (fun m => __trieMapNode_Sizeof m.numChildren m.len)).sum := by
  induction n using TrieMapNode.induct' with
  | h str f val cs ih =>
    simp only [TrieMapNode_MemUsage, allNodes, List.map_cons, List.sum_cons]
    rw [memUsageChildren_sum cs ih]
    rfl

/-- C11: `TrieMapNode_MemUsage` of a node is the sum of
`__trieMapNode_Sizeof(numChildren, len)` over all nodes of its subtree, where
`__trieMapNode_Sizeof(numChildren, len)` is `12 + 8 * numChildren + len + 1`
(packed 12-byte header, 8-byte pointers); a fresh trie reports 13. -/
theorem C11_mem_usage_is_sum_of_node_sizes :
    (∀ n : TrieMapNode, TrieMapNode_MemUsage n =
      ((allNodes n).map (fun m => __trieMapNode_Sizeof m.numChildren m.len)).sum) ∧
    (∀ numChildren len : Nat,
      __trieMapNode_Sizeof numChildren len = 12 + 8 * numChildren + len + 1) ∧
    TrieMapNode_MemUsage NewTrieMap = 13 := by
  refine ⟨MemUsage_sum, ?_, rfl⟩
  intro numChildren len
  simp only [__trieMapNode_Sizeof, sizeof_TrieMapNode, sizeof_pointer]
  omega

/-! ## The nodes of a trie -/

theorem mem_allNodesChildren (cs : List TrieMapNode) (m : TrieMapNode) :
    m ∈ allNodesChildren cs ↔ ∃ c ∈ cs, m ∈ allNodes c := by
  induction cs with
  | nil => simp [allNodesChildren]
  | cons c cs ih =>
    simp only [allNodesChildren, List.mem_append, ih, List.mem_cons]
    constructor
    · rintro (h | ⟨d, hd, hm⟩)
      · exact ⟨c, Or.inl rfl, h⟩
      · exact ⟨d, Or.inr hd, hm⟩
    · rintro ⟨d, rfl | hd, hm⟩
      · exact Or.inl hm
      · exact Or.inr ⟨d, hd, hm⟩

theorem mem_allNodes (str : List Nat) (f v : Nat) (cs : List TrieMapNode) (m : TrieMapNode) :
    m ∈ allNodes (.mk str f v cs) ↔ m = .mk str f v cs ∨ ∃ c ∈ cs, m ∈ allNodes c := by
  simp only [allNodes, List.mem_cons, mem_allNodesChildren]

theorem self_mem_allNodes (n : TrieMapNode) : n ∈ allNodes n := by
  cases n with
  | mk str f v cs => exact (mem_allNodes _ _ _ _ _).mpr (Or.inl rfl)

/-- Every node of a subtree that satisfies the structural invariant satisfies
it with its own length budget. -/
theorem nodeInv_allNodes (n : TrieMapNode) : ∀ (bd : Nat), NodeInv bd n →
    ∀ m ∈ allNodes n, ∃ bd', bd' ≤ bd ∧ NodeInv bd' m := by
  induction n using TrieMapNode.induct' with
  | h str f val cs ih =>
    intro bd hinv m hm
    rcases (mem_allNodes _ _ _ _ _).mp hm with rfl | ⟨c, hc, hm⟩
    · exact ⟨bd, Nat.le_refl _, hinv⟩
    · obtain ⟨-, -, -, -, -, -, h7⟩ := (nodeInv_iff _ _ _ _ _).mp hinv
      obtain ⟨bd', hle, hinv'⟩ := ih c hc _ (h7 c hc) m hm
      exact ⟨bd', by omega, hinv'⟩

/-- C14: in every reachable trie (non-`NULL` values, callbacks returning
non-`NULL`) every node is not both terminal and deleted, and its value is
non-`NULL` exactly when its terminal flag is set. -/
theorem C14_flags_and_value_wellformed (t : TrieMapNode) (ht : Reachable t) :
    ∀ m ∈ allNodes t,
      ¬ (__trieMapNode_isTerminal m ≠ 0 ∧ __trieMapNode_isDeleted m ≠ 0) ∧
      (m.value ≠ 0 ↔ __trieMapNode_isTerminal m ≠ 0) := by
  intro m hm
  obtain ⟨bd', -, hinv⟩ := nodeInv_allNodes t _ (reachable_rootInv ht).2.2.2 m hm
  cases m with
  | mk str f val cs =>
    obtain ⟨-, -, -, h4, h5, -, -⟩ := (nodeInv_iff _ _ _ _ _).mp hinv
    simp only [__trieMapNode_isTerminal, __trieMapNode_isDeleted, TrieMapNode.flags,
      TrieMapNode.value]
    refine ⟨?_, h5⟩
    rintro ⟨ht', hd⟩
    rcases h4 with h4 | h4
    · exact ht' h4
    · exact hd h4

/-- C14, witness: the trie in which "cat" was inserted, "car" inserted and
"cat" deleted. -/
theorem C14_flags_and_value_wellformed_witness :
    Reachable (TrieMapNode_Delete (addAll NewTrieMap [([99, 97, 116], 1), ([99, 97, 114], 2)])
      [99, 97, 116] true).1 ∧
    ∀ m ∈ allNodes (TrieMapNode_Delete (addAll NewTrieMap [([99, 97, 116], 1),
        ([99, 97, 114], 2)]) [99, 97, 116] true).1,
      ¬ (__trieMapNode_isTerminal m ≠ 0 ∧ __trieMapNode_isDeleted m ≠ 0) ∧
      (m.value ≠ 0 ↔ __trieMapNode_isTerminal m ≠ 0) :=
  ⟨Reachable.delete _ true (reachable_addAll _ _ Reachable.new (by decide) (by decide)),
    C14_flags_and_value_wellformed _
      (Reachable.delete _ true (reachable_addAll _ _ Reachable.new (by decide) (by decide)))⟩

/-! ## The radix property -/

theorem radixOK_iff (str : List Nat) (f v : Nat) (cs : List TrieMapNode) :
    RadixOK (.mk str f v cs) ↔
      ((∀ c ∈ cs, 1 ≤ c.len) ∧ cs.Pairwise (fun a c => firstByte a ≠ firstByte c)) ∧
      ∀ c ∈ cs, RadixOK c := by
  constructor
  · intro h
    refine ⟨h _ (self_mem_allNodes _), ?_⟩
    intro c hc m hm
    exact h m ((mem_allNodes _ _ _ _ _).mpr (Or.inr ⟨c, hc, hm⟩))
  · rintro ⟨h1, h2⟩ m hm
    rcases (mem_allNodes _ _ _ _ _).mp hm with rfl | ⟨c, hc, hm⟩
    · exact h1
    · exact h2 c hc m hm

theorem nodeInv_radixOK (n : TrieMapNode) : ∀ (bd : Nat), NodeInv bd n → RadixOK n := by
  induction n using TrieMapNode.induct' with
  | h str f val cs ih =>
    intro bd hinv
    obtain ⟨-, -, h3, -, -, h6, h7⟩ := (nodeInv_iff _ _ _ _ _).mp hinv
    rw [radixOK_iff]
    refine ⟨⟨?_, h3⟩, fun c hc => ih c hc _ (h7 c hc)⟩
    intro c hc
    exact List.length_pos.mpr (h6 c hc)

theorem Split_radixOK (n : TrieMapNode) (offset : Nat) (h : RadixOK n) (ho : offset < n.len) :
    RadixOK (__trieMapNode_Split n offset) := by
  cases n with
  | mk str f v cs =>
    simp only [TrieMapNode.len, TrieMapNode.str] at ho
    obtain ⟨h1, h2⟩ := (radixOK_iff _ _ _ _).mp h
    simp only [__trieMapNode_Split, __newTrieMapNode, TrieMapNode.str, TrieMapNode.flags,
      TrieMapNode.children, TrieMapNode.value, TrieMapNode.len]
    rw [radixOK_iff]
    refine ⟨⟨?_, List.pairwise_singleton _ _⟩, ?_⟩
    · intro c hc
      rw [List.mem_singleton] at hc
      subst hc
      simp only [TrieMapNode.len, TrieMapNode.str, List.length_take, List.length_drop]
      omega
    · intro c hc
      rw [List.mem_singleton] at hc
      subst hc
      rw [radixOK_iff]
      exact ⟨h1, h2⟩

theorem AddChild_radixOK (n : TrieMapNode) (str : List Nat) (offset len value : Nat)
    (h : RadixOK n) (ho : offset < len) (hl : len ≤ str.length)
    (hnew : ∀ c ∈ n.children, firstByte c ≠ (str.drop offset).headD 0)
    (hroom : n.numChildren < 255) :
    RadixOK (__trieMapNode_AddChild n str offset len value) := by
  cases n with
  | mk s f v cs =>
    simp only [TrieMapNode.numChildren, TrieMapNode.children] at hroom hnew
    obtain ⟨⟨h1, h1'⟩, h2⟩ := (radixOK_iff _ _ _ _).mp h
    have htake : ((cs ++ [__newTrieMapNode str offset len value 1]).take
        ((cs.length + 1) % 256)) = cs ++ [__newTrieMapNode str offset len value 1] := by
      rw [Nat.mod_eq_of_lt (by omega)]
      apply List.take_of_length_le
      simp
    have hlen : 1 ≤ (__newTrieMapNode str offset len value 1).len := by
      simp only [__newTrieMapNode, TrieMapNode.len, TrieMapNode.str, List.length_take,
        List.length_drop]
      omega
    have hfb : firstByte (__newTrieMapNode str offset len value 1) =
        (str.drop offset).headD 0 := by
      simp only [__newTrieMapNode, firstByte, TrieMapNode.str]
      cases hd : str.drop offset with
      | nil => simp
      | cons a r =>
        obtain ⟨j, hj⟩ : ∃ j, len - offset = j + 1 := ⟨len - offset - 1, by omega⟩
        rw [hj]; rfl
    simp only [__trieMapNode_AddChild, TrieMapNode.numChildren, TrieMapNode.children,
      TrieMapNode.str, TrieMapNode.flags, TrieMapNode.value, htake]
    rw [radixOK_iff]
    refine ⟨⟨?_, ?_⟩, ?_⟩
    · intro c hc
      rcases List.mem_append.mp hc with hc | hc
      · exact h1 c hc
      · rw [List.mem_singleton] at hc
        subst hc; exact hlen
    · rw [List.pairwise_append]
      refine ⟨h1', List.pairwise_singleton _ _, ?_⟩
      intro c hc d hd
      rw [List.mem_singleton] at hd
      subst hd
      rw [hfb]; exact hnew c hc
    · intro c hc
      rcases List.mem_append.mp hc with hc | hc
      · exact h2 c hc
      · rw [List.mem_singleton] at hc
        subst hc
        simp only [__newTrieMapNode]
        rw [radixOK_iff]
        refine ⟨⟨?_, List.Pairwise.nil⟩, ?_⟩ <;> intro c hc <;>
          exact absurd hc (List.not_mem_nil c)

theorem Merge_radixOK (n : TrieMapNode) (h : RadixOK n)
    (hlen : ∀ g ∈ n.children, n.len + g.len ≤ 65535) :
    RadixOK (__trieMapNode_MergeWithSingleChild n) ∧
      (1 ≤ n.len → 1 ≤ (__trieMapNode_MergeWithSingleChild n).len ∧
        firstByte (__trieMapNode_MergeWithSingleChild n) = firstByte n) := by
  by_cases hc : n.flags &&& 2 ≠ 0 ∨ n.children.length ≠ 1
  · rw [Merge_other n hc]
    exact ⟨h, fun h1 => ⟨h1, rfl⟩⟩
  · cases n with
    | mk s f val chs =>
      simp only [TrieMapNode.flags, TrieMapNode.children, not_or, not_not] at hc
      obtain ⟨hf, hl⟩ := hc
      obtain ⟨g, rfl⟩ := List.length_eq_one.mp hl
      cases g with
      | mk gs gf gv gcs =>
        have hlen' := hlen (.mk gs gf gv gcs) (List.mem_singleton.mpr rfl)
        simp only [TrieMapNode.len, TrieMapNode.str] at hlen'
        rw [Merge_single s f val gs gf gv gcs hf hlen']
        obtain ⟨-, h2⟩ := (radixOK_iff _ _ _ _).mp h
        have hg := h2 _ (List.mem_singleton.mpr rfl)
        refine ⟨?_, ?_⟩
        · rw [radixOK_iff] at hg ⊢
          exact hg
        · intro h1
          simp only [TrieMapNode.len, TrieMapNode.str] at h1
          obtain ⟨a, s', rfl⟩ := List.exists_cons_of_ne_nil (List.length_pos.mp h1)
          simp [TrieMapNode.len, TrieMapNode.str, firstByte]

/-- One pass of the compaction loop keeps the radix property of the
children. -/
theorem optimize_radixOK (freeCB : Bool) (cs : List TrieMapNode) :
    (∀ c ∈ cs, 1 ≤ c.len) → (∀ c ∈ cs, RadixOK c) →
    (∀ c ∈ cs, ∀ g ∈ c.children, c.len + g.len ≤ 65535) →
    (∀ c ∈ (optimizeChildrenLoop cs freeCB).1, 1 ≤ c.len) ∧
    (∀ c ∈ (optimizeChildrenLoop cs freeCB).1, RadixOK c) ∧
    ((optimizeChildrenLoop cs freeCB).1.map firstByte).Sublist (cs.map firstByte) := by
  induction cs with
  | nil =>
    intro _ _ _
    simp [optimizeChildrenLoop]
  | cons c rest ih =>
    intro hne hrad hlen
    by_cases hdead : c.numChildren = 0 ∧ __trieMapNode_isDeleted c ≠ 0
    · have hr : optimizeChildrenLoop (c :: rest) freeCB = (rest, TrieMapNode_Free c freeCB) := by
        simp only [optimizeChildrenLoop]
        rw [if_pos hdead]
      rw [hr]
      refine ⟨fun d hd => hne d (List.mem_cons_of_mem _ hd),
        fun d hd => hrad d (List.mem_cons_of_mem _ hd), ?_⟩
      simp only [List.map_cons]
      exact List.sublist_cons_self _ _
    · obtain ⟨ih1, ih2, ih3⟩ := ih (fun d hd => hne d (List.mem_cons_of_mem _ hd))
        (fun d hd => hrad d (List.mem_cons_of_mem _ hd))
        (fun d hd => hlen d (List.mem_cons_of_mem _ hd))
      have hr : optimizeChildrenLoop (c :: rest) freeCB =
          ((if c.numChildren = 1 then __trieMapNode_MergeWithSingleChild c else c) ::
            (optimizeChildrenLoop rest freeCB).1, (optimizeChildrenLoop rest freeCB).2) := by
        simp only [optimizeChildrenLoop]
        rw [if_neg hdead]
      rw [hr]
      have hc1 := hne c (List.mem_cons_self _ _)
      have hc2 := hrad c (List.mem_cons_self _ _)
      have hm : RadixOK (if c.numChildren = 1 then __trieMapNode_MergeWithSingleChild c else c) ∧
          1 ≤ (if c.numChildren = 1 then __trieMapNode_MergeWithSingleChild c else c).len ∧
          firstByte (if c.numChildren = 1 then __trieMapNode_MergeWithSingleChild c else c) =
            firstByte c := by
        by_cases h1 : c.numChildren = 1
        · rw [if_pos h1]
          obtain ⟨m1, m2⟩ := Merge_radixOK c hc2 (hlen c (List.mem_cons_self _ _))
          exact ⟨m1, m2 hc1⟩
        · rw [if_neg h1]
          exact ⟨hc2, hc1, rfl⟩
      obtain ⟨hm1, hm2, hm3⟩ := hm
      refine ⟨?_, ?_, ?_⟩
      · intro d hd
        rcases List.mem_cons.mp hd with rfl | hd
        · exact hm2
        · exact ih1 d hd
      · intro d hd
        rcases List.mem_cons.mp hd with rfl | hd
        · exact hm1
        · exact ih2 d hd
      · simp only [List.map_cons, hm3]
        exact List.Sublist.cons₂ _ ih3

theorem optimizeChildren_radixOK (freeCB : Bool) (n : TrieMapNode) (h : RadixOK n)
    (hlen : ∀ c ∈ n.children, ∀ g ∈ c.children, c.len + g.len ≤ 65535) :
    RadixOK (__trieMapNode_optimizeChildren n freeCB).1 := by
  cases n with
  | mk str f v cs =>
    simp only [TrieMapNode.children] at hlen
    obtain ⟨⟨h1, h1'⟩, h2⟩ := (radixOK_iff _ _ _ _).mp h
    obtain ⟨o1, o2, o3⟩ := optimize_radixOK freeCB cs h1 h2 hlen
    simp only [__trieMapNode_optimizeChildren, TrieMapNode.children, TrieMapNode.str,
      TrieMapNode.flags, TrieMapNode.value]
    rw [radixOK_iff]
    refine ⟨⟨o1, ?_⟩, o2⟩
    have hp : (cs.map firstByte).Pairwise (fun x y => x ≠ y) := List.pairwise_map.mpr h1'
    exact List.pairwise_map.mp (hp.sublist o3)

/-- C12: in every reachable trie every non-root node (every child of a node)
has a segment of at least one byte and no node has two children whose
segments start with the same byte. The property is kept by a split inside
the segment, by appending a child with a new first byte to a node with
fewer than 255 children, by a compaction pass (child removal) and by a merge,
the last two with segment lengths that fit `tm_len_t`. -/
theorem C12_radix_invariant (t : TrieMapNode) (ht : Reachable t) :
    RadixOK t ∧
    (∀ n offset, RadixOK n → offset < n.len → RadixOK (__trieMapNode_Split n offset)) ∧
    (∀ n str offset len value, RadixOK n → offset < len → len ≤ str.length →
      (∀ c ∈ n.children, firstByte c ≠ (str.drop offset).headD 0) → n.numChildren < 255 →
      RadixOK (__trieMapNode_AddChild n str offset len value)) ∧
    (∀ n freeCB, RadixOK n →
      (∀ c ∈ n.children, ∀ g ∈ c.children, c.len + g.len ≤ TM_MAX_STRING_LEN) →
      RadixOK (__trieMapNode_optimizeChildren n freeCB).1) ∧
    (∀ n, RadixOK n → (∀ g ∈ n.children, n.len + g.len ≤ TM_MAX_STRING_LEN) →
      RadixOK (__trieMapNode_MergeWithSingleChild n) ∧
      (1 ≤ n.len → 1 ≤ (__trieMapNode_MergeWithSingleChild n).len ∧
        firstByte (__trieMapNode_MergeWithSingleChild n) = firstByte n)) :=
  ⟨nodeInv_radixOK t _ (reachable_rootInv ht).2.2.2,
    fun n offset h ho => Split_radixOK n offset h ho,
    fun n str offset len value h ho hl hnew hroom =>
      AddChild_radixOK n str offset len value h ho hl hnew hroom,
    fun n freeCB h hlen => optimizeChildren_radixOK freeCB n h hlen,
    fun n h hlen => Merge_radixOK n h hlen⟩

/-- C12, witness: the trie holding "apple", "app" and "apply" after the
deletion of "app". -/
theorem C12_radix_invariant_witness :
    Reachable (TrieMapNode_Delete (addAll NewTrieMap [([97, 112, 112, 108, 101], 1),
      ([97, 112, 112], 2), ([97, 112, 112, 108, 121], 3)]) [97, 112, 112] true).1 ∧
    RadixOK (TrieMapNode_Delete (addAll NewTrieMap [([97, 112, 112, 108, 101], 1),
      ([97, 112, 112], 2), ([97, 112, 112, 108, 121], 3)]) [97, 112, 112] true).1 :=
  ⟨Reachable.delete _ true (reachable_addAll _ _ Reachable.new (by decide) (by decide)),
    (C12_radix_invariant _
      (Reachable.delete _ true (reachable_addAll _ _ Reachable.new (by decide) (by decide)))).1⟩

/-! ## The compaction loop, the child counter and the split -/

/-- C16, the code at the failing input: a node with two children that are both
deleted and childless. One call of `__trieMapNode_optimizeChildren` removes
the first of them and leaves the loop; the second one is still a child
afterwards. -/
theorem C16_second_dead_child_survives :
    __trieMapNode_optimizeChildren (.mk [] 0 0 [.mk [1] 1 0 [], .mk [2] 1 0 []]) true =
      (.mk [] 0 0 [.mk [2] 1 0 []], []) ∧
    (__trieMapNode_optimizeChildren (.mk [] 0 0 [.mk [1] 1 0 [], .mk [2] 1 0 []]) true).1.numChildren
      = 1 ∧
    (∃ c ∈ (__trieMapNode_optimizeChildren
        (.mk [] 0 0 [.mk [1] 1 0 [], .mk [2] 1 0 []]) true).1.children,
      c.numChildren = 0 ∧ __trieMapNode_isDeleted c ≠ 0) :=
  ⟨rfl, rfl, .mk [2] 1 0 [], List.mem_singleton.mpr rfl, rfl, by decide⟩

theorem AddChild_numChildren (n : TrieMapNode) (str : List Nat) (offset len value : Nat) :
    (__trieMapNode_AddChild n str offset len value).numChildren =
      min ((n.numChildren + 1) % 256) (n.numChildren + 1) := by
  simp [__trieMapNode_AddChild, TrieMapNode.numChildren, TrieMapNode.children]

/-- C18: `__trieMapNode_AddChild` on a node with `c` children (an 8-bit count)
stores the count `(c + 1) mod 256`; with 255 children the stored count is 0,
and a `TrieMapNode_Add` that appends this 256th child still returns 1. -/
theorem C18_child_counter_wraps (n : TrieMapNode) (str : List Nat) (offset len value : Nat)
    (hc : n.numChildren ≤ 255) :
    (__trieMapNode_AddChild n str offset len value).numChildren = (n.numChildren + 1) % 256 ∧
    (n.numChildren = 255 → (__trieMapNode_AddChild n str offset len value).numChildren = 0) ∧
    (∀ (b : Nat) (k : List Nat) (v : Nat) (cb : Option (Nat → Nat → Nat)),
      n.numChildren = 255 → (∀ c ∈ n.children, firstByte c ≠ b) →
      (TrieMapNode_Add n (n.str ++ b :: k) v cb).2 = 1 ∧
      (TrieMapNode_Add n (n.str ++ b :: k) v cb).1.numChildren = 0) := by
  have h1 : (__trieMapNode_AddChild n str offset len value).numChildren =
      (n.numChildren + 1) % 256 := by
    rw [AddChild_numChildren]
    exact Nat.min_eq_left (Nat.mod_le _ _)
  refine ⟨h1, ?_, ?_⟩
  · intro h255
    rw [h1, h255]
  · intro b k v cb h255 hnone
    cases n with
    | mk s f val cs =>
      simp only [TrieMapNode.numChildren, TrieMapNode.children] at h255 hnone
      simp only [TrieMapNode.str]
      rw [Add_descend, addToChild_none _ _ _ _ _ hnone, h255]
      exact ⟨rfl, rfl⟩

/-- C18, witness: the root with the 255 children `[0]`, …, `[254]`. -/
theorem C18_child_counter_wraps_witness :
    (fullRoot 255).numChildren ≤ 255 ∧
    ((__trieMapNode_AddChild (fullRoot 255) [255] 0 1 9).numChildren =
      ((fullRoot 255).numChildren + 1) % 256 ∧
    ((fullRoot 255).numChildren = 255 →
      (__trieMapNode_AddChild (fullRoot 255) [255] 0 1 9).numChildren = 0) ∧
    (∀ (b : Nat) (k : List Nat) (v : Nat) (cb : Option (Nat → Nat → Nat)),
      (fullRoot 255).numChildren = 255 → (∀ c ∈ (fullRoot 255).children, firstByte c ≠ b) →
      (TrieMapNode_Add (fullRoot 255) ((fullRoot 255).str ++ b :: k) v cb).2 = 1 ∧
      (TrieMapNode_Add (fullRoot 255) ((fullRoot 255).str ++ b :: k) v cb).1.numChildren = 0)) :=
  ⟨by simp [fullRoot, TrieMapNode.numChildren, TrieMapNode.children],
    C18_child_counter_wraps (fullRoot 255) [255] 0 1 9
      (by simp [fullRoot, TrieMapNode.numChildren, TrieMapNode.children])⟩

/-- C19: in a reachable trie, `TrieMapNode_Add` of a non-empty key with a
non-`NULL` value, in a call that gives no node more than 255 children,
leaves the result of `TrieMapNode_Find` unchanged for every other key, also
when the call splits a node on the other key's path or lands on a
tombstone. -/
theorem C19_add_frame (t : TrieMapNode) (k : List Nat) (v : Nat)
    (cb : Option (Nat → Nat → Nat)) (k' : List Nat) (ht : Reachable t) (_hk : k ≠ [])
    (_hv : v ≠ 0) (hfits : addFits t k = true) (hne : k' ≠ k) :
    TrieMapNode_Find (TrieMapNode_Add t k v cb).1 k' = TrieMapNode_Find t k' :=
  Find_add_other t _ (reachable_rootInv ht).2.2.2 k v cb hfits k' hne

/-- C19, witness: "apple" is stored; inserting "apply" splits its node and
"apple" is found as before. -/
theorem C19_add_frame_witness :
    Reachable (TrieMapNode_Add NewTrieMap [97, 112, 112, 108, 101] 1 none).1 ∧
    ([97, 112, 112, 108, 121] : List Nat) ≠ [] ∧ (3 : Nat) ≠ 0 ∧
    addFits (TrieMapNode_Add NewTrieMap [97, 112, 112, 108, 101] 1 none).1
      [97, 112, 112, 108, 121] = true ∧
    ([97, 112, 112, 108, 101] : List Nat) ≠ [97, 112, 112, 108, 121] ∧
    TrieMapNode_Find (TrieMapNode_Add (TrieMapNode_Add NewTrieMap [97, 112, 112, 108, 101] 1
      none).1 [97, 112, 112, 108, 121] 3 none).1 [97, 112, 112, 108, 101] =
    TrieMapNode_Find (TrieMapNode_Add NewTrieMap [97, 112, 112, 108, 101] 1 none).1
      [97, 112, 112, 108, 101] :=
  ⟨Reachable.add [97, 112, 112, 108, 101] 1 none Reachable.new (by decide) (by decide)
      (fun g hg => by cases hg) (by decide),
    by decide, by decide, by decide, by decide,
    C19_add_frame _ [97, 112, 112, 108, 121] 3 none [97, 112, 112, 108, 101]
      (Reachable.add [97, 112, 112, 108, 101] 1 none Reachable.new (by decide) (by decide)
        (fun g hg => by cases hg) (by decide))
      (by decide) (by decide) (by decide) (by decide)⟩

theorem Merge_Split (n : TrieMapNode) (k : Nat) (hlen : n.len ≤ 65535) :
    __trieMapNode_MergeWithSingleChild (__trieMapNode_Split n k) = n := by
  cases n with
  | mk str f v cs =>
    simp only [TrieMapNode.len, TrieMapNode.str] at hlen
    have hs : __trieMapNode_Split (.mk str f v cs) k =
        .mk (str.take k) (f &&& 252) 0 [.mk (str.drop k) f v cs] := by
      simp [__trieMapNode_Split, __newTrieMapNode, TrieMapNode.str, TrieMapNode.flags,
        TrieMapNode.children, TrieMapNode.value, TrieMapNode.len]
    rw [hs, Merge_single _ _ _ _ _ _ _ (by simp), List.take_append_drop]
    have := congrArg List.length (List.take_append_drop k str)
    simp only [List.length_append] at this
    omega

/-- C20: for a node whose length fits `tm_len_t` and an offset inside its
segment, merging the split node gives back the node: the same segment,
children, value and flags. `__trieMapNode_MergeWithSingleChild` returns its
argument unchanged when the node is terminal or its child count is not 1. -/
theorem C20_split_merge_round_trip (n : TrieMapNode) (k : Nat)
    (hlen : n.len ≤ TM_MAX_STRING_LEN) (_hk : k < n.len) :
    __trieMapNode_MergeWithSingleChild (__trieMapNode_Split n k) = n ∧
    (∀ m : TrieMapNode, __trieMapNode_isTerminal m ≠ 0 ∨ m.numChildren ≠ 1 →
      __trieMapNode_MergeWithSingleChild m = m) :=
  ⟨Merge_Split n k hlen, fun m hm => Merge_other m hm⟩

/-- C20, witness: the terminal node "apple" with one child, split after
"app". -/
theorem C20_split_merge_round_trip_witness :
    (TrieMapNode.mk [97, 112, 112, 108, 101] 2 1 [.mk [115] 2 2 []]).len ≤ TM_MAX_STRING_LEN ∧
    3 < (TrieMapNode.mk [97, 112, 112, 108, 101] 2 1 [.mk [115] 2 2 []]).len ∧
    (__trieMapNode_MergeWithSingleChild (__trieMapNode_Split
      (TrieMapNode.mk [97, 112, 112, 108, 101] 2 1 [.mk [115] 2 2 []]) 3) =
      TrieMapNode.mk [97, 112, 112, 108, 101] 2 1 [.mk [115] 2 2 []] ∧
    (∀ m : TrieMapNode, __trieMapNode_isTerminal m ≠ 0 ∨ m.numChildren ≠ 1 →
      __trieMapNode_MergeWithSingleChild m = m)) :=
  ⟨by decide, by decide,
    C20_split_merge_round_trip (.mk [97, 112, 112, 108, 101] 2 1 [.mk [115] 2 2 []]) 3
      (by decide) (by decide)⟩

/-! ## The path stack of `TrieMapNode_Delete` -/

theorem deleteStackPosChild_le (cs : List TrieMapNode) (key : List Nat)
    (h : ∀ c ∈ cs, deleteStackPos c key ≤ key.length) :
    deleteStackPosChild cs key ≤ key.length := by
  induction cs with
  | nil => simp [deleteStackPosChild]
  | cons c cs ih =>
    simp only [deleteStackPosChild]
    split
    · exact h c (List.mem_cons_self _ _)
    · exact ih (fun d hd => h d (List.mem_cons_of_mem _ hd))

/-- The descent pushes at most one node per key byte below a node with a
non-empty segment, and one node more at a node with an empty segment. -/
theorem deleteStackPos_le (n : TrieMapNode) : ∀ (bd : Nat) (key : List Nat), NodeInv bd n →
    deleteStackPos n key ≤ key.length + 1 ∧ (n.str ≠ [] → deleteStackPos n key ≤ key.length) := by
  induction n using TrieMapNode.induct' with
  | h str f val cs ih =>
    intro bd key hinv
    obtain ⟨-, -, -, -, -, h6, h7⟩ := (nodeInv_iff _ _ _ _ _).mp hinv
    have hchild : deleteStackPosChild cs (key.drop (matchLen key str)) ≤
        (key.drop (matchLen key str)).length :=
      deleteStackPosChild_le _ _ (fun c hc => (ih c hc _ _ (h7 c hc)).2 (h6 c hc))
    have hml := matchLen_le_left key str
    simp only [List.length_drop] at hchild
    simp only [deleteStackPos, TrieMapNode.str]
    by_cases hk : key.length = 0
    · simp [hk]
    · rw [if_neg hk]
      by_cases h1 : matchLen key str = key.length
      · rw [if_pos h1]
        exact ⟨by omega, fun _ => by omega⟩
      · rw [if_neg h1]
        by_cases h2 : matchLen key str = str.length
        · rw [if_pos h2]
          refine ⟨by omega, fun hs => ?_⟩
          have : 0 < str.length := List.length_pos.mpr hs
          omega
        · rw [if_neg h2]
          exact ⟨by omega, fun _ => by omega⟩

/-- C17, counterexample: the trie holds the one-byte key `[97]`;
`TrieMapNode_Delete` of that key pushes the root and the node of the key,
two nodes for a key of length 1. -/
theorem C17_counterexample :
    Reachable (TrieMapNode_Add NewTrieMap [97] 1 none).1 ∧
    ([97] : List Nat).length = 1 ∧
    deleteStackPos (TrieMapNode_Add NewTrieMap [97] 1 none).1 [97] = 2 :=
  ⟨Reachable.add [97] 1 none Reachable.new (by decide) (by decide)
    (fun g hg => by cases hg) (by decide), rfl, by decide⟩

/-- C17, amended: in a reachable trie the descent of `TrieMapNode_Delete` for
a key of length `len` records at most `len + 1` nodes on the path stack, the
root and at most one node per key byte; so the stack capacity
`TM_MAX_STRING_LEN` is not exceeded for keys shorter than 65535 bytes. -/
theorem C17_delete_stack_bound (t : TrieMapNode) (key : List Nat) (ht : Reachable t) :
    deleteStackPos t key ≤ key.length + 1 ∧
    (key.length < TM_MAX_STRING_LEN → deleteStackPos t key ≤ TM_MAX_STRING_LEN) := by
  have h := (deleteStackPos_le t _ key (reachable_rootInv ht).2.2.2).1
  exact ⟨h, fun hlt => by omega⟩

/-- C17, witness: the trie holding "apple", "app" and "apply" and the key
"apple". -/
theorem C17_delete_stack_bound_witness :
    Reachable (addAll NewTrieMap [([97, 112, 112, 108, 101], 1), ([97, 112, 112], 2),
      ([97, 112, 112, 108, 121], 3)]) ∧
    (deleteStackPos (addAll NewTrieMap [([97, 112, 112, 108, 101], 1), ([97, 112, 112], 2),
      ([97, 112, 112, 108, 121], 3)]) [97, 112, 112, 108, 101] ≤
      ([97, 112, 112, 108, 101] : List Nat).length + 1 ∧
    (([97, 112, 112, 108, 101] : List Nat).length < TM_MAX_STRING_LEN →
      deleteStackPos (addAll NewTrieMap [([97, 112, 112, 108, 101], 1), ([97, 112, 112], 2),
        ([97, 112, 112, 108, 121], 3)]) [97, 112, 112, 108, 101] ≤ TM_MAX_STRING_LEN)) :=
  ⟨reachable_addAll _ _ Reachable.new (by decide) (by decide),
    C17_delete_stack_bound _ [97, 112, 112, 108, 101]
      (reachable_addAll _ _ Reachable.new (by decide) (by decide))⟩

/-- Inserting the key of `k + 2` bytes `7` below the chain of `k + 1` nodes
appends one node at its end. -/
theorem add_chainNode (k : Nat) :
    TrieMapNode_Add (chainNode k) (List.replicate (k + 2) 7) 1 none = (chainNode (k + 1), 1) ∧
      addFits (chainNode k) (List.replicate (k + 2) 7) = true := by
  induction k with
  | zero => exact ⟨rfl, rfl⟩
  | succ k ih =>
    have hkey : List.replicate (k + 1 + 2) 7 = [7] ++ 7 :: List.replicate (k + 1) 7 := rfl
    have hrest : (7 :: List.replicate (k + 1) 7) = List.replicate (k + 2) 7 := rfl
    have hfb : firstByte (chainNode k) = 7 := by cases k <;> rfl
    have hl1 : ∀ d ∈ ([] : List TrieMapNode), firstByte d ≠ 7 :=
      fun d hd => absurd hd (List.not_mem_nil d)
    constructor
    · show TrieMapNode_Add (.mk [7] 2 1 [chainNode k]) _ 1 none = _
      rw [hkey, Add_descend]
      have := addToChild_hit [] (chainNode k) [] 7 (List.replicate (k + 1) 7) 1 none hl1 hfb
      rw [List.nil_append] at this
      rw [this, hrest, ih.1]
      rfl
    · show addFits (.mk [7] 2 1 [chainNode k]) _ = true
      rw [hkey, addFits_descend]
      have := addFitsChild_hit [] (chainNode k) [] 1 7 (List.replicate (k + 1) 7) hl1 hfb
      rw [List.nil_append] at this
      show addFitsChild [chainNode k] 1 (7 :: List.replicate (k + 1) 7) = true
      rw [this, hrest, ih.2]

theorem reachable_chainRoot (k : Nat) (hk : k + 1 ≤ 65535) : Reachable (chainRoot k) := by
  induction k with
  | zero =>
    exact Reachable.add [7] 1 none Reachable.new (by decide) (by decide)
      (fun g hg => by cases hg) (by decide)
  | succ k ih =>
    have hfb : firstByte (chainNode k) = 7 := by cases k <;> rfl
    have hl1 : ∀ d ∈ ([] : List TrieMapNode), firstByte d ≠ 7 :=
      fun d hd => absurd hd (List.not_mem_nil d)
    obtain ⟨a1, a2⟩ := add_chainNode k
    have hadd : (TrieMapNode_Add (chainRoot k) (List.replicate (k + 2) 7) 1 none).1 =
        chainRoot (k + 1) := by
      have h := Add_descend [] 7 (List.replicate (k + 1) 7) 0 0 [chainNode k] 1 none
      have h2 := addToChild_hit [] (chainNode k) [] 7 (List.replicate (k + 1) 7) 1 none hl1 hfb
      rw [List.nil_append] at h h2
      show (TrieMapNode_Add (.mk [] 0 0 [chainNode k]) (7 :: List.replicate (k + 1) 7) 1 none).1
        = _
      rw [h, h2]
      show TrieMapNode.mk [] 0 0 [(TrieMapNode_Add (chainNode k) (List.replicate (k + 2) 7) 1
        none).1] = _
      rw [a1]
      rfl
    have hfit : addFits (chainRoot k) (List.replicate (k + 2) 7) = true := by
      have h := addFits_descend [] 7 (List.replicate (k + 1) 7) 0 0 [chainNode k]
      have h2 := addFitsChild_hit [] (chainNode k) [] 1 7 (List.replicate (k + 1) 7) hl1 hfb
      rw [List.nil_append] at h h2
      show addFits (.mk [] 0 0 [chainNode k]) (7 :: List.replicate (k + 1) 7) = true
      rw [h]
      show addFitsChild [chainNode k] 1 (7 :: List.replicate (k + 1) 7) = true
      rw [h2]
      exact a2
    rw [← hadd]
    have hlen : (List.replicate (k + 2) 7).length ≤ TM_MAX_STRING_LEN := by
      rw [List.length_replicate]
      show k + 2 ≤ 65535
      omega
    exact Reachable.add _ 1 none (ih (by omega)) hlen (by decide)
      (fun g hg => by cases hg) hfit

theorem deleteStackPos_chainNode (k : Nat) :
    deleteStackPos (chainNode k) (List.replicate (k + 1) 7) = k + 1 := by
  induction k with
  | zero => rfl
  | succ k ih =>
    have hfb : firstByte (chainNode k) = 7 := by cases k <;> rfl
    show deleteStackPos (.mk [7] 2 1 [chainNode k]) (7 :: List.replicate (k + 1) 7) = _
    have hm : matchLen (7 :: List.replicate (k + 1) 7) [7] = 1 := by
      simp [matchLen_cons, matchLen_nil_right]
    simp only [deleteStackPos, hm]
    rw [if_neg (by simp), if_neg (by simp), if_pos (by simp)]
    simp only [List.drop_succ_cons, List.drop_zero, deleteStackPosChild]
    rw [if_pos (by rw [hfb]; rfl), ih]
    omega

theorem deleteStackPos_chainRoot (k : Nat) :
    deleteStackPos (chainRoot k) (List.replicate (k + 1) 7) = k + 2 := by
  have hfb : firstByte (chainNode k) = 7 := by cases k <;> rfl
  have h := deleteStackPos_chainNode k
  show deleteStackPos (.mk [] 0 0 [chainNode k]) (List.replicate (k + 1) 7) = _
  rw [List.replicate_succ] at h ⊢
  simp only [deleteStackPos, matchLen_nil_right]
  rw [if_neg (by simp), if_neg (by simp), if_pos (by simp)]
  simp only [List.drop_zero, deleteStackPosChild]
  rw [if_pos (by rw [hfb]; rfl), h]
  omega

/-- The path stack overflows: a reachable trie and a key of 65535 bytes for
which the descent of `TrieMapNode_Delete` pushes 65536 nodes, one more than
the stack holds. -/
theorem Delete_stack_overflow :
    Reachable (chainRoot 65534) ∧ (List.replicate 65535 7).length = TM_MAX_STRING_LEN ∧
    deleteStackPos (chainRoot 65534) (List.replicate 65535 7) = TM_MAX_STRING_LEN + 1 :=
  ⟨reachable_chainRoot 65534 (Nat.le_refl _), List.length_replicate _ _,
    deleteStackPos_chainRoot 65534⟩

/-! ## The compaction invariant -/

theorem compactInv_iff (str : List Nat) (f v : Nat) (cs : List TrieMapNode) :
    CompactInv (.mk str f v cs) ↔
      (f &&& 2 ≠ 0 ∨ 2 ≤ cs.length) ∧ ∀ c ∈ cs, CompactInv c := by
  constructor
  · intro h
    cases h with
    | mk h1 h2 => exact ⟨h1, h2⟩
  · rintro ⟨h1, h2⟩
    exact CompactInv.mk h1 h2

/-- The compaction invariant of a node depends on its flags and children
only. -/
theorem compactInv_congr (m m' : TrieMapNode) (hf : m.flags = m'.flags)
    (hc : m.children = m'.children) : CompactInv m ↔ CompactInv m' := by
  cases m with
  | mk s f v cs =>
    cases m' with
    | mk s' f' v' cs' =>
      simp only [TrieMapNode.flags, TrieMapNode.children] at hf hc
      subst hf hc
      rw [compactInv_iff, compactInv_iff]

theorem compactInv_allNodes (n : TrieMapNode) : CompactInv n → ∀ m ∈ allNodes n, CompactInv m := by
  induction n using TrieMapNode.induct' with
  | h str f val cs ih =>
    intro h m hm
    rcases (mem_allNodes _ _ _ _ _).mp hm with rfl | ⟨c, hc, hm⟩
    · exact h
    · exact ih c hc (((compactInv_iff _ _ _ _).mp h).2 c hc) m hm

/-- A node that satisfies the compaction invariant and is not both terminal
and deleted is left alone by the compaction loop: it is no childless
tombstone, and a single child is not merged into it. -/
theorem compact_child_kept (c : TrieMapNode) (hci : CompactInv c)
    (h4 : c.flags &&& 2 = 0 ∨ c.flags &&& 1 = 0) :
    ¬ (c.numChildren = 0 ∧ __trieMapNode_isDeleted c ≠ 0) ∧
      (if c.numChildren = 1 then __trieMapNode_MergeWithSingleChild c else c) = c := by
  cases c with
  | mk s f v cs =>
    obtain ⟨hj, -⟩ := (compactInv_iff _ _ _ _).mp hci
    simp only [TrieMapNode.flags] at h4
    simp only [TrieMapNode.numChildren, TrieMapNode.children, __trieMapNode_isDeleted,
      TrieMapNode.flags]
    constructor
    · rintro ⟨h0, hd⟩
      rcases hj with hj | hj
      · rcases h4 with h4 | h4
        · exact hj h4
        · exact hd h4
      · omega
    · by_cases h1 : cs.length = 1
      · rw [if_pos h1]
        apply Merge_other
        left
        rcases hj with hj | hj
        · exact hj
        · omega
      · rw [if_neg h1]

theorem optimize_compact_all (freeCB : Bool) (cs : List TrieMapNode)
    (hci : ∀ c ∈ cs, CompactInv c) (h4 : ∀ c ∈ cs, c.flags &&& 2 = 0 ∨ c.flags &&& 1 = 0) :
    (optimizeChildrenLoop cs freeCB).1 = cs := by
  induction cs with
  | nil => rfl
  | cons c rest ih =>
    obtain ⟨k1, k2⟩ := compact_child_kept c (hci c (List.mem_cons_self _ _))
      (h4 c (List.mem_cons_self _ _))
    simp only [optimizeChildrenLoop]
    rw [if_neg k1]
    simp only [k2]
    rw [ih (fun d hd => hci d (List.mem_cons_of_mem _ hd))
      (fun d hd => h4 d (List.mem_cons_of_mem _ hd))]

theorem optimize_compact_skip (freeCB : Bool) (l1 rest : List TrieMapNode)
    (hci : ∀ c ∈ l1, CompactInv c) (h4 : ∀ c ∈ l1, c.flags &&& 2 = 0 ∨ c.flags &&& 1 = 0) :
    (optimizeChildrenLoop (l1 ++ rest) freeCB).1 =
      l1 ++ (optimizeChildrenLoop rest freeCB).1 := by
  induction l1 with
  | nil => rfl
  | cons c l1 ih =>
    obtain ⟨k1, k2⟩ := compact_child_kept c (hci c (List.mem_cons_self _ _))
      (h4 c (List.mem_cons_self _ _))
    have ih' := ih (fun d hd => hci d (List.mem_cons_of_mem _ hd))
      (fun d hd => h4 d (List.mem_cons_of_mem _ hd))
    rw [List.cons_append]
    simp only [optimizeChildrenLoop]
    rw [if_neg k1]
    simp only [k2]
    rw [ih']
    rfl

theorem optimize_length (freeCB : Bool) (cs : List TrieMapNode) :
    cs.length ≤ (optimizeChildrenLoop cs freeCB).1.length + 1 := by
  induction cs with
  | nil => simp [optimizeChildrenLoop]
  | cons c rest ih =>
    simp only [optimizeChildrenLoop]
    split
    · simp
    · simp only [List.length_cons]; omega

/-- The merge of a node whose children satisfy the compaction invariant gives
a node that satisfies it, when the node has exactly one child. -/
theorem Merge_compact (c : TrieMapNode) (h1 : c.numChildren = 1)
    (hch : ∀ g ∈ c.children, CompactInv g) :
    CompactInv (__trieMapNode_MergeWithSingleChild c) := by
  cases c with
  | mk s f v cs =>
    simp only [TrieMapNode.numChildren, TrieMapNode.children] at h1 hch
    obtain ⟨g, rfl⟩ := List.length_eq_one.mp h1
    have hg := hch g (List.mem_singleton.mpr rfl)
    by_cases ht : f &&& 2 = 0
    · have hm : (__trieMapNode_MergeWithSingleChild (.mk s f v [g])).flags = g.flags ∧
          (__trieMapNode_MergeWithSingleChild (.mk s f v [g])).children = g.children := by
        simp [__trieMapNode_MergeWithSingleChild, __trieMapNode_isTerminal, TrieMapNode.flags,
          TrieMapNode.numChildren, TrieMapNode.children, ht]
      exact (compactInv_congr _ _ hm.1 hm.2).mpr hg
    · have ht' : (TrieMapNode.mk s f v [g]).flags &&& 2 ≠ 0 := ht
      rw [Merge_other _ (Or.inl ht'), compactInv_iff]
      exact ⟨Or.inl ht, hch⟩

/-- One pass of the compaction loop over children that all satisfy the
compaction invariant, except one that the descent has just left and that is
terminal, deleted or not childless: afterwards all children satisfy it. -/
theorem optimize_compact_one (freeCB : Bool) (l1 : List TrieMapNode) (c : TrieMapNode)
    (l2 : List TrieMapNode)
    (hci : ∀ d ∈ l1 ++ l2, CompactInv d)
    (h4 : ∀ d ∈ l1 ++ l2, d.flags &&& 2 = 0 ∨ d.flags &&& 1 = 0)
    (hfix : c.flags &&& 2 ≠ 0 ∨ c.flags &&& 1 ≠ 0 ∨ 1 ≤ c.children.length)
    (hch : ∀ g ∈ c.children, CompactInv g) :
    ∀ d ∈ (optimizeChildrenLoop (l1 ++ c :: l2) freeCB).1, CompactInv d := by
  have hl1 : ∀ d ∈ l1, CompactInv d := fun d hd => hci d (List.mem_append_left _ hd)
  have hl2 : ∀ d ∈ l2, CompactInv d := fun d hd => hci d (List.mem_append_right _ hd)
  rw [optimize_compact_skip freeCB l1 _ hl1 (fun d hd => h4 d (List.mem_append_left _ hd))]
  by_cases hdead : c.numChildren = 0 ∧ __trieMapNode_isDeleted c ≠ 0
  · have hr : (optimizeChildrenLoop (c :: l2) freeCB).1 = l2 := by
      simp only [optimizeChildrenLoop]
      rw [if_pos hdead]
    rw [hr]
    intro d hd
    exact hci d hd
  · have hr : (optimizeChildrenLoop (c :: l2) freeCB).1 =
        (if c.numChildren = 1 then __trieMapNode_MergeWithSingleChild c else c) :: l2 := by
      simp only [optimizeChildrenLoop]
      rw [if_neg hdead]
      simp only []
      rw [optimize_compact_all freeCB l2 hl2 (fun d hd => h4 d (List.mem_append_right _ hd))]
    rw [hr]
    intro d hd
    rcases List.mem_append.mp hd with hd | hd
    · exact hl1 d hd
    · rcases List.mem_cons.mp hd with rfl | hd
      · by_cases h1 : c.numChildren = 1
        · rw [if_pos h1]
          exact Merge_compact c h1 hch
        · rw [if_neg h1]
          cases c with
          | mk s f v cs =>
            simp only [TrieMapNode.numChildren, TrieMapNode.children, __trieMapNode_isDeleted,
              TrieMapNode.flags] at h1 hdead hfix hch
            rw [compactInv_iff]
            refine ⟨?_, hch⟩
            by_cases ht : f &&& 2 = 0
            · right
              rcases hfix with hfix | hfix | hfix
              · exact absurd ht hfix
              · have : cs.length ≠ 0 := fun h0 => hdead ⟨h0, hfix⟩
                omega
              · omega
            · exact Or.inl ht
      · exact hl2 d hd

/-- `TrieMapNode_Add` keeps the compaction invariant of a node, and of the
children of a node below which the key goes on, when no child counter
wraps. -/
theorem Add_compact (n : TrieMapNode) : ∀ (key : List Nat) (v : Nat)
    (cb : Option (Nat → Nat → Nat)), addFits n key = true →
    (CompactInv n → CompactInv (TrieMapNode_Add n key v cb).1) ∧
    (∀ b k, key = n.str ++ b :: k → (∀ c ∈ n.children, CompactInv c) →
      ∀ c ∈ (TrieMapNode_Add n key v cb).1.children, CompactInv c) := by
  induction n using TrieMapNode.induct' with
  | h str f val cs ih =>
    intro key v cb hfits
    simp only [TrieMapNode.str, TrieMapNode.children]
    by_cases hkey : key = []
    · subst hkey
      rw [Add_nil]
      exact ⟨fun h => h, fun b k h => absurd h (by simp)⟩
    have hleaf : ∀ (k2 : List Nat), CompactInv (.mk k2 2 v []) := by
      intro k2
      rw [compactInv_iff]
      exact ⟨Or.inl (by decide), fun c hc => absurd hc (List.not_mem_nil c)⟩
    rcases key_cases key str with ⟨s, hs, rfl⟩ | ⟨p, a, k0, b0, s, hab, rfl, rfl⟩ | rfl |
      ⟨b, k, rfl⟩
    · rw [Add_split_exact key s hkey hs]
      refine ⟨?_, ?_⟩
      · intro h
        rw [compactInv_iff]
        refine ⟨Or.inl (by simp), ?_⟩
        intro c hc
        rw [List.mem_singleton] at hc
        subst hc
        rw [compactInv_iff] at h ⊢
        exact h
      · intro b k h
        have := congrArg List.length h
        simp only [List.length_append, List.length_cons] at this
        omega
    · rw [Add_split_child p a k0 b0 s hab]
      refine ⟨?_, ?_⟩
      · intro h
        rw [compactInv_iff]
        refine ⟨Or.inr (by simp), ?_⟩
        intro c hc
        simp only [List.mem_cons, List.mem_singleton, List.not_mem_nil, or_false] at hc
        rcases hc with rfl | rfl
        · rw [compactInv_iff] at h ⊢
          exact h
        · exact hleaf _
      · intro b k h
        rw [List.append_assoc] at h
        have := List.append_cancel_left h
        simp only [List.cons_append, List.cons.injEq] at this
        exact absurd this.1 hab
    · rw [Add_exact key hkey]
      refine ⟨?_, ?_⟩
      · intro h
        rw [compactInv_iff] at h ⊢
        exact ⟨Or.inl (by simp), h.2⟩
      · intro b k h
        have := congrArg List.length h
        simp only [List.length_append, List.length_cons] at this
        omega
    · rw [addFits_descend] at hfits
      rw [Add_descend]
      have hchild : (∀ c ∈ cs, CompactInv c) →
          (∀ c ∈ (match addToChild cs (b :: k) v cb with
            | some (cs', rc) => (TrieMapNode.mk str f val cs', rc)
            | none => (TrieMapNode.mk str f val ((cs ++ [TrieMapNode.mk (b :: k) 2 v []]).take
                ((cs.length + 1) % 256)), 1)).1.children, CompactInv c) ∧
          cs.length ≤ (match addToChild cs (b :: k) v cb with
            | some (cs', rc) => (TrieMapNode.mk str f val cs', rc)
            | none => (TrieMapNode.mk str f val ((cs ++ [TrieMapNode.mk (b :: k) 2 v []]).take
                ((cs.length + 1) % 256)), 1)).1.children.length ∧
          (match addToChild cs (b :: k) v cb with
            | some (cs', rc) => (TrieMapNode.mk str f val cs', rc)
            | none => (TrieMapNode.mk str f val ((cs ++ [TrieMapNode.mk (b :: k) 2 v []]).take
                ((cs.length + 1) % 256)), 1)).1.flags = f := by
        intro hcs
        rcases scan_cases cs b with hnone | ⟨l1, c, l2, rfl, hl1, hc⟩
        · rw [addFitsChild_none _ _ _ _ hnone] at hfits
          have hlt : cs.length < 255 := by simpa using hfits
          have htake : ((cs ++ [TrieMapNode.mk (b :: k) 2 v []]).take
              ((cs.length + 1) % 256)) = cs ++ [TrieMapNode.mk (b :: k) 2 v []] := by
            rw [Nat.mod_eq_of_lt (by omega)]
            apply List.take_of_length_le
            simp
          rw [addToChild_none _ _ _ _ _ hnone]
          simp only [htake, TrieMapNode.children, TrieMapNode.flags]
          refine ⟨?_, by simp, trivial⟩
          intro c hc
          rcases List.mem_append.mp hc with hc | hc
          · exact hcs c hc
          · rw [List.mem_singleton] at hc
            subst hc; exact hleaf _
        · rw [addFitsChild_hit _ _ _ _ _ _ hl1 hc] at hfits
          rw [addToChild_hit _ _ _ _ _ _ _ hl1 hc]
          have hcm : c ∈ l1 ++ c :: l2 := by simp
          have ihc := (ih c hcm (b :: k) v cb hfits).1 (hcs c hcm)
          simp only [TrieMapNode.children, TrieMapNode.flags]
          refine ⟨?_, by simp, trivial⟩
          intro d hd
          rcases List.mem_append.mp hd with hd | hd
          · exact hcs d (List.mem_append_left _ hd)
          · rcases List.mem_cons.mp hd with rfl | hd
            · exact ihc
            · exact hcs d (List.mem_append_right _ (List.mem_cons_of_mem _ hd))
      refine ⟨?_, ?_⟩
      · intro h
        obtain ⟨hj, hcs⟩ := (compactInv_iff _ _ _ _).mp h
        obtain ⟨c1, c2, c3⟩ := hchild hcs
        apply (compactInv_congr _ (.mk str f val _) c3 rfl).mpr
        rw [compactInv_iff]
        refine ⟨?_, c1⟩
        rcases hj with hj | hj
        · exact Or.inl hj
        · exact Or.inr (Nat.le_trans hj c2)
      · intro _ _ _ hcs
        exact (hchild hcs).1

theorem nodeInv_flags (bd : Nat) (c : TrieMapNode) (h : NodeInv bd c) :
    c.flags &&& 2 = 0 ∨ c.flags &&& 1 = 0 := by
  cases c with
  | mk s f v cs => exact ((nodeInv_iff _ _ _ _ _).mp h).2.2.2.1

theorem optimizeChildren_node (str : List Nat) (f v : Nat) (cs : List TrieMapNode)
    (freeCB : Bool) :
    (__trieMapNode_optimizeChildren (.mk str f v cs) freeCB).1 =
      .mk str f v (optimizeChildrenLoop cs freeCB).1 := rfl

/-- `TrieMapNode_Delete` leaves the children of the node it returns in the
compaction invariant; the node itself is terminal, deleted or not childless,
which is what the compaction of its parent repairs. -/
theorem Delete_compact (n : TrieMapNode) : ∀ (bd : Nat) (key : List Nat) (freeCB : Bool),
    NodeInv bd n → (∀ c ∈ n.children, CompactInv c) →
    (∀ c ∈ (TrieMapNode_Delete n key freeCB).1.children, CompactInv c) ∧
    ((n.flags &&& 2 ≠ 0 ∨ 2 ≤ n.children.length) →
      (TrieMapNode_Delete n key freeCB).1.flags &&& 2 ≠ 0 ∨
      (TrieMapNode_Delete n key freeCB).1.flags &&& 1 ≠ 0 ∨
      1 ≤ (TrieMapNode_Delete n key freeCB).1.children.length) := by
  induction n using TrieMapNode.induct' with
  | h str f val cs ih =>
    intro bd key freeCB hinv hcs
    simp only [TrieMapNode.children, TrieMapNode.flags] at hcs ⊢
    obtain ⟨-, -, -, -, -, -, h7⟩ := (nodeInv_iff _ _ _ _ _).mp hinv
    have h4 : ∀ c ∈ cs, c.flags &&& 2 = 0 ∨ c.flags &&& 1 = 0 :=
      fun c hc => nodeInv_flags _ c (h7 c hc)
    have hsame : ∀ (F V : Nat),
        (__trieMapNode_optimizeChildren (.mk str F V cs) freeCB).1 = .mk str F V cs := by
      intro F V
      rw [optimizeChildren_node, optimize_compact_all freeCB cs hcs h4]
    have hkeep : (∀ c ∈ (TrieMapNode.mk str f val cs).children, CompactInv c) ∧
        ((f &&& 2 ≠ 0 ∨ 2 ≤ cs.length) →
          (TrieMapNode.mk str f val cs).flags &&& 2 ≠ 0 ∨
          (TrieMapNode.mk str f val cs).flags &&& 1 ≠ 0 ∨
          1 ≤ (TrieMapNode.mk str f val cs).children.length) := by
      refine ⟨hcs, ?_⟩
      simp only [TrieMapNode.children, TrieMapNode.flags]
      rintro (h | h)
      · exact Or.inl h
      · exact Or.inr (Or.inr (by omega))
    by_cases hkey : key = []
    · subst hkey
      rw [Delete_nil]
      exact hkeep
    by_cases hx1 : key = str
    · subst hx1
      rw [Delete_exact key hkey]
      by_cases hd : f &&& 1 = 0
      · rw [if_pos hd]
        simp only [hsame]
        refine ⟨hcs, fun _ => Or.inr (Or.inl ?_)⟩
        simp [TrieMapNode.flags]
      · rw [if_neg hd]
        simp only [hsame]
        exact hkeep
    · by_cases hx2 : ∃ b k, key = str ++ b :: k
      · obtain ⟨b, k, rfl⟩ := hx2
        rw [Delete_descend]
        rcases scan_cases cs b with hnone | ⟨l1, c, l2, rfl, hl1, hc⟩
        · rw [deleteInChild_none _ _ _ _ hnone]
          simp only [hsame]
          exact hkeep
        · rw [deleteInChild_hit _ _ _ _ _ _ hl1 hc]
          have hcm : c ∈ l1 ++ c :: l2 := by simp
          have hcc := hcs c hcm
          obtain ⟨i1, i2⟩ := ih c hcm _ (b :: k) freeCB (h7 c hcm)
            (by
              cases c with
              | mk s' f' v' cs' => exact ((compactInv_iff _ _ _ _).mp hcc).2)
          have hj : c.flags &&& 2 ≠ 0 ∨ 2 ≤ c.children.length := by
            cases c with
            | mk s' f' v' cs' => exact ((compactInv_iff _ _ _ _).mp hcc).1
          have hrest : ∀ d ∈ l1 ++ l2, d ∈ l1 ++ c :: l2 := by
            intro d hd
            rcases List.mem_append.mp hd with hd | hd
            · exact List.mem_append_left _ hd
            · exact List.mem_append_right _ (List.mem_cons_of_mem _ hd)
          have hone := optimize_compact_one freeCB l1 (TrieMapNode_Delete c (b :: k) freeCB).1 l2
            (fun d hd => hcs d (hrest d hd)) (fun d hd => h4 d (hrest d hd)) (i2 hj) i1
          have hlen := optimize_length freeCB
            (l1 ++ (TrieMapNode_Delete c (b :: k) freeCB).1 :: l2)
          simp only [optimizeChildren_node, TrieMapNode.children, TrieMapNode.flags]
          refine ⟨hone, ?_⟩
          rintro (h | h)
          · exact Or.inl h
          · right; right
            simp only [List.length_append, List.length_cons] at h hlen
            omega
      · have hx2' : ∀ b k, key ≠ str ++ b :: k := fun b k h => hx2 ⟨b, k, h⟩
        rw [Delete_miss _ _ _ _ _ _ hkey hx1 hx2']
        simp only [hsame]
        exact hkeep

/-- In a reachable trie every node below the root satisfies the compaction
invariant. -/
theorem reachable_compact {t : TrieMapNode} (h : Reachable t) :
    ∀ c ∈ t.children, CompactInv c := by
  induction h with
  | new =>
    intro c hc
    exact absurd hc (List.not_mem_nil c)
  | @add t key v cb ht hlen hv hcb hfits ih =>
    obtain ⟨h1, -, -, -⟩ := reachable_rootInv ht
    cases key with
    | nil => rw [Add_nil]; exact ih
    | cons b k =>
      exact (Add_compact t (b :: k) v cb hfits).2 b k (by rw [h1]; rfl) ih
  | @delete t key freeCB ht ih =>
    exact (Delete_compact t _ key freeCB (reachable_rootInv ht).2.2.2 ih).1

/-- In a reachable trie every child of every node is terminal or has at least
two children, and is not both terminal and deleted. -/
theorem reachable_children (t : TrieMapNode) (ht : Reachable t) :
    ∀ m ∈ allNodes t, ∀ c ∈ m.children,
      (c.flags &&& 2 ≠ 0 ∨ 2 ≤ c.children.length) ∧ (c.flags &&& 2 = 0 ∨ c.flags &&& 1 = 0) := by
  intro m hm c hc
  have hroot := reachable_compact ht
  obtain ⟨bd', -, hinv⟩ := nodeInv_allNodes t _ (reachable_rootInv ht).2.2.2 m hm
  have hci : CompactInv c := by
    cases t with
    | mk str f val cs =>
      rcases (mem_allNodes _ _ _ _ _).mp hm with rfl | ⟨d, hd, hm'⟩
      · exact hroot c hc
      · have hmci := compactInv_allNodes d (hroot d hd) m hm'
        cases m with
        | mk s' f' v' cs' => exact ((compactInv_iff _ _ _ _).mp hmci).2 c hc
  have hcinv : ∃ bd'', NodeInv bd'' c := by
    cases m with
    | mk s' f' v' cs' => exact ⟨_, ((nodeInv_iff _ _ _ _ _).mp hinv).2.2.2.2.2.2 c hc⟩
  obtain ⟨bd'', hcinv⟩ := hcinv
  refine ⟨?_, nodeInv_flags _ c hcinv⟩
  cases c with
  | mk s' f' v' cs' => exact ((compactInv_iff _ _ _ _).mp hci).1

/-- A node of a subtree is its root or a child of a node of the subtree. -/
theorem allNodes_parent (n : TrieMapNode) :
    ∀ m ∈ allNodes n, m = n ∨ ∃ p ∈ allNodes n, m ∈ p.children := by
  induction n using TrieMapNode.induct' with
  | h str f val cs ih =>
    intro m hm
    rcases (mem_allNodes _ _ _ _ _).mp hm with rfl | ⟨c, hc, hm'⟩
    · exact Or.inl rfl
    · right
      rcases ih c hc m hm' with rfl | ⟨p, hp, hmp⟩
      · exact ⟨_, self_mem_allNodes _, hc⟩
      · exact ⟨p, (mem_allNodes _ _ _ _ _).mpr (Or.inr ⟨c, hc, hp⟩), hmp⟩

/-- C13: for a reachable trie and any key, present or not, after
`TrieMapNode_Delete` returns no node of the trie has the deleted flag set
while having zero children. -/
theorem C13_no_childless_tombstone_after_delete (t : TrieMapNode) (key : List Nat)
    (freeCB : Bool) (ht : Reachable t) :
    ∀ m ∈ allNodes (TrieMapNode_Delete t key freeCB).1,
      ¬ (__trieMapNode_isDeleted m ≠ 0 ∧ m.numChildren = 0) := by
  have ht' : Reachable (TrieMapNode_Delete t key freeCB).1 := Reachable.delete key freeCB ht
  intro m hm
  rcases allNodes_parent _ m hm with rfl | ⟨p, hp, hmp⟩
  · obtain ⟨-, h2, -, -⟩ := reachable_rootInv ht'
    rintro ⟨hd, -⟩
    apply hd
    simp only [__trieMapNode_isDeleted]
    rw [h2]
    rfl
  · obtain ⟨hj, h4⟩ := reachable_children _ ht' p hp m hmp
    simp only [__trieMapNode_isDeleted, TrieMapNode.numChildren]
    rintro ⟨hd, h0⟩
    rcases hj with hj | hj
    · rcases h4 with h4 | h4
      · exact hj h4
      · exact hd h4
    · omega

/-- C13, witness: "cat" and "car" are stored and "cat" is deleted. -/
theorem C13_no_childless_tombstone_after_delete_witness :
    Reachable (addAll NewTrieMap [([99, 97, 116], 1), ([99, 97, 114], 2)]) ∧
    ∀ m ∈ allNodes (TrieMapNode_Delete (addAll NewTrieMap [([99, 97, 116], 1),
        ([99, 97, 114], 2)]) [99, 97, 116] true).1,
      ¬ (__trieMapNode_isDeleted m ≠ 0 ∧ m.numChildren = 0) :=
  ⟨reachable_addAll _ _ Reachable.new (by decide) (by decide),
    C13_no_childless_tombstone_after_delete _ [99, 97, 116] true
      (reachable_addAll _ _ Reachable.new (by decide) (by decide))⟩

/-- C15: in every reachable trie, that is, after each `TrieMapNode_Add` and
`TrieMapNode_Delete` call has returned, no node below the root is
non-terminal with exactly one child. -/
theorem C15_no_single_child_chain (t : TrieMapNode) (ht : Reachable t) :
    ∀ m ∈ allNodes t, ∀ c ∈ m.children,
      ¬ (__trieMapNode_isTerminal c = 0 ∧ c.numChildren = 1) := by
  intro m hm c hc
  obtain ⟨hj, -⟩ := reachable_children t ht m hm c hc
  simp only [__trieMapNode_isTerminal, TrieMapNode.numChildren]
  rintro ⟨h0, h1⟩
  rcases hj with hj | hj
  · exact hj h0
  · omega

/-- C15, witness: "hello" and "helloworld" are stored and "hello" is
deleted, which merges the two nodes. -/
theorem C15_no_single_child_chain_witness :
    Reachable (TrieMapNode_Delete (addAll NewTrieMap [([104, 101, 108, 108, 111], 2),
      ([104, 101, 108, 108, 111, 119, 111, 114, 108, 100], 1)]) [104, 101, 108, 108, 111]
      true).1 ∧
    ∀ m ∈ allNodes (TrieMapNode_Delete (addAll NewTrieMap [([104, 101, 108, 108, 111], 2),
        ([104, 101, 108, 108, 111, 119, 111, 114, 108, 100], 1)]) [104, 101, 108, 108, 111]
        true).1,
      ∀ c ∈ m.children, ¬ (__trieMapNode_isTerminal c = 0 ∧ c.numChildren = 1) :=
  ⟨Reachable.delete _ true (reachable_addAll _ _ Reachable.new (by decide) (by decide)),
    C15_no_single_child_chain _
      (Reachable.delete _ true (reachable_addAll _ _ Reachable.new (by decide) (by decide)))⟩
